import Mathlib

/-!
Verification of the migration-pipeline core of the
Enterprise-Database-Migration repository (MySQL → PostgreSQL migration
pipeline).  The Python source is shallowly embedded: pure functions become
Lean functions on `List Char` / `List`-based data, Python dicts become
association lists with Python's insertion-order/overwrite semantics, and
the few unbounded `while` loops are given an explicit fuel argument that
is proved sufficient.  Every definition is translated from the source
files under `src/`; the only modelled language built-in is Python's
float-to-string conversion, documented at `pyFloatRepr`.
-/

namespace DbMigration

/-! ## Python string primitives -/

/-- Characters treated as whitespace by Python's `str.strip()` (ASCII subset;
the source only ever strips LLM output, which is ASCII-framed). -/
def pyIsSpace (c : Char) : Bool :=
  c = ' ' || c = '\t' || c = '\n' || c = '\r' || c = '\x0b' || c = '\x0c'

/-- Python `str.strip()` on a character list: drop leading and trailing
whitespace. -/
def pyStripChars (l : List Char) : List Char :=
  ((l.dropWhile pyIsSpace).reverse.dropWhile pyIsSpace).reverse

/-- Python `str.upper()` restricted to ASCII (all type names in the source
are ASCII). -/
def pyUpperChars (l : List Char) : List Char :=
  l.map Char.toUpper

/-- One step of Python `str.replace(pat, rep)`: fuelled so that it computes
by kernel reduction; the pattern is nonempty at every call site, and the
fuel is the length of the subject string, which is an upper bound on the
number of recursion steps. -/
def pyReplaceAux (pat rep : List Char) : Nat → List Char → List Char
  | 0, s => s
  | fuel + 1, s =>
    if pat ≠ [] ∧ pat.isPrefixOf s then
      rep ++ pyReplaceAux pat rep fuel (s.drop pat.length)
    else
      match s with
      | [] => []
      | c :: rest => c :: pyReplaceAux pat rep fuel rest

/-- Python `str.replace(pat, rep)` (replace every non-overlapping occurrence,
scanning left to right). -/
def pyReplace (pat rep s : List Char) : List Char :=
  pyReplaceAux pat rep s.length s

/-- Python `", ".join(...)`-style joining. -/
def joinSep (sep : String) : List String → String
  | [] => ""
  | [ s ] => s
  | s :: rest => s ++ sep ++ joinSep sep rest

/-- Double-quote an identifier, as the f-strings `f'"{c}"'` in the source do. -/
def quoteIdent (s : String) : String :=
  "\"" ++ s ++ "\""

/-- Lexicographic comparison of character lists by code point; this is the
order Python uses to compare strings (`sorted([a, b])`). -/
def pyCharsLe : List Char → List Char → Bool
  | [], _ => true
  | _ :: _, [] => false
  | a :: as, b :: bs =>
    if a < b then true
    else if b < a then false
    else pyCharsLe as bs

/-- Python `a <= b` on strings. -/
def pyStrLe (a b : String) : Bool :=
  pyCharsLe a.data b.data

/-! ## Python dict / set primitives

Python dicts preserve insertion order; assigning to an existing key keeps
its position and replaces the value.  They are modelled as association
lists with exactly those semantics. -/

/-- Python `d[k] = v` on an insertion-ordered dict. -/
def dictInsert {β : Type} (m : List (String × β)) (k : String) (v : β) :
    List (String × β) :=
  match m with
  | [] => [ (k, v) ]
  | (k', v') :: rest =>
    if k' = k then (k', v) :: rest else (k', v') :: dictInsert rest k v

/-- Python `k in d`. -/
def dictMem {β : Type} (m : List (String × β)) (k : String) : Bool :=
  m.any (fun kv => kv.1 = k)

/-- Python `d.get(k, dflt)`. -/
def dictGetD {β : Type} (m : List (String × β)) (k : String) (dflt : β) : β :=
  match m.find? (fun kv => kv.1 = k) with
  | some kv => kv.2
  | none => dflt

/-- Python `d.pop(k)`: remove the binding of `k` (no-op when absent, which
never happens at the call site, guarded by `k in d`). -/
def dictRemove {β : Type} (m : List (String × β)) (k : String) :
    List (String × β) :=
  match m with
  | [] => []
  | (k', v') :: rest =>
    if k' = k then rest else (k', v') :: dictRemove rest k

/-- Python `s.add(x)` on a set modelled as a duplicate-free list (membership
is all the source ever uses sets for). -/
def setAdd (s : List String) (x : String) : List String :=
  if x ∈ s then s else s ++ [ x ]

/-- Same as `setAdd` for sets of string pairs (`circular_pairs.add(pair)`). -/
def pairSetAdd (s : List (String × String)) (x : String × String) :
    List (String × String) :=
  if x ∈ s then s else s ++ [ x ]

/-- First-occurrence key list of the dict comprehension
`{node.id: ... for node in nodes}`. -/
def pyDictKeys (l : List String) : List String :=
  l.foldl (fun acc k => if k ∈ acc then acc else acc ++ [ k ]) []

/-! ## C2 — `SchemaAgent._clean_sql_output` (schema_agent.py 630–650)

Pass-1 CREATE TABLE statements are produced by the external text collaborator
(the LLM) and then passed through `_clean_sql_output`, which strips markdown
code fences and guarantees a trailing semicolon. -/

/-- The fence-stripping part of `_clean_sql_output` (everything before the
final semicolon check). -/
def cleanSqlCore (sql0 : List Char) : List Char :=
  let sql1 := pyStripChars sql0
  let sql2 :=
    if ( "```sql".data).isPrefixOf sql1 then sql1.drop 6
    else if ( "```".data).isPrefixOf sql1 then sql1.drop 3
    else sql1
  let sql3 :=
    if ( "```".data).isSuffixOf sql2 then sql2.take (sql2.length - 3)
    else sql2
  pyStripChars sql3

/-- Translation of `_clean_sql_output` on character lists. -/
def cleanSqlChars (sql0 : List Char) : List Char :=
  let sql4 := cleanSqlCore sql0
  if ( ";".data).isSuffixOf sql4 then sql4 else sql4 ++ [ ';' ]

/-- The `SchemaAgent._clean_sql_output` method: the pass-1 CREATE TABLE
statement for a table is `cleanSqlOutput llmResponse`. -/
def cleanSqlOutput (sql : String) : String :=
  ⟨cleanSqlChars sql.data⟩

/-! ## C9 — `SQLTransformer.map_type` (sql_transformer.py 13–63, 178–204) -/

/-- The module-level `TYPE_MAPPINGS` table, transcribed entry for entry. -/
def typeMappings : List (String × String) :=
  [ ( "TINYINT", "SMALLINT"),
    ( "TINYINT UNSIGNED", "SMALLINT"),
    ( "SMALLINT UNSIGNED", "INTEGER"),
    ( "MEDIUMINT", "INTEGER"),
    ( "MEDIUMINT UNSIGNED", "INTEGER"),
    ( "INT", "INTEGER"),
    ( "INT UNSIGNED", "BIGINT"),
    ( "INTEGER", "INTEGER"),
    ( "INTEGER UNSIGNED", "BIGINT"),
    ( "BIGINT", "BIGINT"),
    ( "BIGINT UNSIGNED", "NUMERIC(20)"),
    ( "FLOAT", "REAL"),
    ( "DOUBLE", "DOUBLE PRECISION"),
    ( "DOUBLE PRECISION", "DOUBLE PRECISION"),
    ( "DECIMAL", "NUMERIC"),
    ( "TINYTEXT", "TEXT"),
    ( "TEXT", "TEXT"),
    ( "MEDIUMTEXT", "TEXT"),
    ( "LONGTEXT", "TEXT"),
    ( "TINYBLOB", "BYTEA"),
    ( "BLOB", "BYTEA"),
    ( "MEDIUMBLOB", "BYTEA"),
    ( "LONGBLOB", "BYTEA"),
    ( "BINARY", "BYTEA"),
    ( "VARBINARY", "BYTEA"),
    ( "DATETIME", "TIMESTAMP"),
    ( "TIMESTAMP", "TIMESTAMP"),
    ( "DATE", "DATE"),
    ( "TIME", "TIME"),
    ( "YEAR", "SMALLINT"),
    ( "TINYINT(1)", "BOOLEAN"),
    ( "BIT", "BOOLEAN"),
    ( "BIT(1)", "BOOLEAN"),
    ( "JSON", "JSONB"),
    ( "GEOMETRY", "GEOMETRY"),
    ( "POINT", "POINT") ]

/-- Types that keep their size suffix in `map_type`. -/
def sizeKeepingTypes : List String :=
  [ "VARCHAR", "CHAR", "DECIMAL", "NUMERIC" ]

/-- The part of `mysql_type_upper` before the first `(`
(`mysql_type_upper.split("(")[0]`). -/
def beforeParen (l : List Char) : List Char :=
  l.takeWhile (fun c => c ≠ '(')

/-- Translation of `SQLTransformer.map_type`.  Note that `size_part` is
sliced out of the *original* argument (`mysql_type[len(base_type):]`),
exactly as in the source. -/
def mapType (mysqlType : String) : String :=
  let mysqlTypeUpper : String := ⟨pyStripChars (pyUpperChars mysqlType.data)⟩
  match typeMappings.find? (fun kv => kv.1 = mysqlTypeUpper) with
  | some kv => kv.2
  | none =>
    let baseType : String := ⟨pyStripChars (beforeParen mysqlTypeUpper.data)⟩
    match typeMappings.find? (fun kv => kv.1 = baseType) with
    | some kv =>
      if baseType ∈ sizeKeepingTypes then
        let sizePart : String := ⟨mysqlType.data.drop baseType.data.length⟩
        kv.2 ++ sizePart
      else kv.2
    | none =>
      if ( "ENUM".data).isPrefixOf mysqlTypeUpper.data then "TEXT"
      else if ( "SET".data).isPrefixOf mysqlTypeUpper.data then "TEXT[]"
      else mysqlType

/-! ## C1 — `DependencyAgent._topological_sort` (dependency_agent.py 173–209) -/

/-- Node of the dependency graph (`DependencyNode` in `state.py`). -/
structure DependencyNode where
  id : String
  name : String
  type : String
  complexity : String
deriving DecidableEq, Repr

/-- Edge of the dependency graph (`DependencyEdge` in `state.py`). -/
structure DependencyEdge where
  from_id : String
  to_id : String
  edge_type : String
deriving DecidableEq, Repr

/-- The adjacency dict built by `_topological_sort`: `graph[k]` is the list of
`from_id`s of edges pointing to `k`, in edge order, restricted to edges whose
two endpoints are both node ids (`if edge.from_id in graph and edge.to_id in graph`). -/
def buildAdjacency (keys : List String) (edges : List DependencyEdge)
    (k : String) : List String :=
  (edges.filter (fun e =>
    e.to_id = k && keys.contains e.from_id && keys.contains e.to_id)).map
    (fun e => e.from_id)

/-- The in-degree counter after the edge loop: `in_degree[k]` counts the edges
leaving `k` whose endpoints are both node ids. -/
def initialInDegree (keys : List String) (edges : List DependencyEdge)
    (k : String) : Int :=
  ((edges.filter (fun e =>
    e.from_id = k && keys.contains e.from_id && keys.contains e.to_id)).length : Int)

/-- The inner `for dependent in graph.get(node_id, [])` loop: decrement each
dependent's in-degree and enqueue it when the count reaches zero. -/
def processNeighbors : List String → (String → Int) → List String →
    ((String → Int) × List String)
  | [], deg, queue => (deg, queue)
  | d :: ds, deg, queue =>
    let deg' := fun k => if k = d then deg k - 1 else deg k
    let queue' := if deg' d = 0 then queue ++ [ d ] else queue
    processNeighbors ds deg' queue'

/-- The `while queue:` loop of `_topological_sort`, with fuel.  The fuel used
at the call site is the number of node ids, which theorem
`kahnLoop_fuel_stable` proves is always enough: each iteration moves one fresh
node id into `result`, and `result` never exceeds the number of node ids. -/
def kahnLoop (graph : String → List String) :
    Nat → List String → (String → Int) → List String → List String
  | 0, _, _, result => result
  | fuel + 1, queue, deg, result =>
    match queue with
    | [] => result
    | nodeId :: rest =>
      let step := processNeighbors (graph nodeId) deg rest
      kahnLoop graph fuel step.2 step.1 (result ++ [ nodeId ])

/-- The portion of the order produced by the Kahn phase of
`_topological_sort` (everything before the cycle remainder is appended). -/
def kahnPart (nodes : List DependencyNode) (edges : List DependencyEdge) :
    List String :=
  let keys := pyDictKeys (nodes.map (fun n => n.id))
  let graph := buildAdjacency keys edges
  let deg := initialInDegree keys edges
  let queue := keys.filter (fun k => deg k = 0)
  kahnLoop graph keys.length queue deg []

/-- Translation of `DependencyAgent._topological_sort`: the Kahn phase
followed by `result.extend([n for n in in_degree if n not in result])`. -/
def topologicalSort (nodes : List DependencyNode)
    (edges : List DependencyEdge) : List String :=
  let keys := pyDictKeys (nodes.map (fun n => n.id))
  let kahn := kahnPart nodes edges
  kahn ++ keys.filter (fun k => !(kahn.contains k))

/-! ## C7 — `BlueprintAgent._detect_circular_fks` / `is_circular_fk`
(blueprint_agent.py 99–119, 146–148) -/

/-- Foreign-key record as introspected (`table.foreign_keys` entries). -/
structure FKMeta where
  name : String
  columns : List String
  referred_table : String
  referred_columns : List String
deriving DecidableEq, Repr

/-- Table record as introspected (only the fields `_detect_circular_fks`
reads). -/
structure TableMeta where
  name : String
  foreign_keys : List FKMeta
deriving DecidableEq, Repr

/-- The per-table adjacency set: tables that `t` FK-references, excluding a
falsy (empty) referred name and self-references, built with set semantics. -/
def refSetOf (t : TableMeta) : List String :=
  t.foreign_keys.foldl
    (fun s fk =>
      if fk.referred_table ≠ "" ∧ fk.referred_table ≠ t.name then
        setAdd s fk.referred_table
      else s)
    []

/-- The `fk_graph` dict of `_detect_circular_fks`: later tables with the same
name overwrite earlier ones, as Python dict assignment does. -/
def fkGraph (tables : List TableMeta) : List (String × List String) :=
  tables.foldl (fun m t => dictInsert m t.name (refSetOf t)) []

/-- Python `tuple(sorted([a, b]))`. -/
def sortedPair (a b : String) : String × String :=
  if pyStrLe a b then (a, b) else (b, a)

/-- Translation of the pair-collection loop of `_detect_circular_fks`. -/
def circularPairs (tables : List TableMeta) : List (String × String) :=
  (fkGraph tables).foldl
    (fun pairs kv =>
      kv.2.foldl
        (fun pairs b =>
          if dictMem (fkGraph tables) b ∧ kv.1 ∈ dictGetD (fkGraph tables) b [] then
            pairSetAdd pairs (sortedPair kv.1 b)
          else pairs)
        pairs)
    []

/-- Translation of the `is_circular_fk` closure of
`BlueprintAgent._create_table_blueprint`. -/
def isCircularFK (tables : List TableMeta) (t1 t2 : String) : Bool :=
  (circularPairs tables).contains (sortedPair t1 t2)

/-! ## C3 / C6 — `SchemaAgent._generate_deferred_fks` and
`SchemaAgent._generate_indexes` (schema_agent.py 430–541)

Both methods scan the per-table blueprint JSON files written by
`BlueprintAgent`; a blueprint file is modelled by the record below. -/

/-- An entry of a blueprint's `foreign_keys.outgoing` list. -/
structure BlueprintFK where
  name : String
  columns : List String
  references_table : String
  references_columns : List String
  is_deferred : Bool
deriving DecidableEq, Repr

/-- An entry of a blueprint's `indexes` list. -/
structure BlueprintIndex where
  name : String
  columns : List String
  unique : Bool
deriving DecidableEq, Repr

/-- An entry of the top-level `columns` key that `_generate_indexes` reads
(`blueprint.get("columns", [])`); note that blueprints written by
`BlueprintAgent` store columns under `schema.columns` instead, so this list
is empty for them. -/
structure BlueprintColumn where
  name : String
  type : String
deriving DecidableEq, Repr

/-- A blueprint JSON file, restricted to the keys the two generators read. -/
structure Blueprint where
  table_name : String
  outgoing_fks : List BlueprintFK
  indexes : List BlueprintIndex
  columns : List BlueprintColumn
deriving DecidableEq, Repr

/-- The guard `if not columns or not ref_table or not ref_columns: continue`
of `_generate_deferred_fks` (an FK failing it is skipped). -/
def fkComplete (fk : BlueprintFK) : Bool :=
  fk.columns ≠ [] && fk.references_table ≠ "" && fk.references_columns ≠ []

/-- The `ALTER TABLE … ADD CONSTRAINT … FOREIGN KEY …` f-string of
`_generate_deferred_fks`, byte for byte (including the trailing space before
the line break and the four-space indent). -/
def mkAlterFkStatement (tableName : String) (fk : BlueprintFK) : String :=
  "ALTER TABLE " ++ quoteIdent tableName ++ " ADD CONSTRAINT " ++
    quoteIdent fk.name ++ " \n    FOREIGN KEY (" ++
    joinSep ", " (fk.columns.map quoteIdent) ++ ") REFERENCES " ++
    quoteIdent fk.references_table ++ " (" ++
    joinSep ", " (fk.references_columns.map quoteIdent) ++ ");"

/-- Translation of `SchemaAgent._generate_deferred_fks`: one ALTER statement
per complete outgoing FK of every blueprint, deferred or not. -/
def generateDeferredFks (blueprints : List Blueprint) : List String :=
  blueprints.flatMap (fun bp =>
    bp.outgoing_fks.filterMap (fun fk =>
      if fkComplete fk then some (mkAlterFkStatement bp.table_name fk)
      else none))

/-- All (table, FK) pairs declared across a list of blueprints. -/
def declaredFks (blueprints : List Blueprint) : List (String × BlueprintFK) :=
  blueprints.flatMap (fun bp => bp.outgoing_fks.map (fun fk => (bp.table_name, fk)))

/-- Overwrite the `is_deferred` flag of every FK of every blueprint; used to
state that `_generate_deferred_fks` ignores the circular flag. -/
def setAllDeferredFlags (b : Bool) (blueprints : List Blueprint) :
    List Blueprint :=
  blueprints.map (fun bp =>
    { bp with outgoing_fks := bp.outgoing_fks.map (fun fk => { fk with is_deferred := b }) })

/-- The index-renaming logic of `_generate_indexes`: rewrite `idx_…` names
that do not already start with `idx_{table_name}`. -/
def rewriteIndexName (tableName idxName : String) : String :=
  if (( "idx_" ++ tableName).data).isPrefixOf idxName.data then idxName
  else if ( "idx_fk_".data).isPrefixOf idxName.data ∨
      ( "idx_".data).isPrefixOf idxName.data then
    let colPart : String :=
      ⟨pyReplace ( "idx_".data) [] (pyReplace ( "idx_fk_".data) [] idxName.data)⟩
    "idx_" ++ tableName ++ "_" ++ colPart
  else idxName

/-- The GiST test of `_generate_indexes`: some indexed column has type
GEOMETRY, POINT or NULL in the blueprint's top-level `columns` table. -/
def needsGistIndex (bp : Blueprint) (idxColumns : List String) : Bool :=
  idxColumns.any (fun c =>
    let colType : String :=
      ⟨pyUpperChars (dictGetD (bp.columns.foldl
        (fun m col => dictInsert m col.name col) []) c
        { name := "", type := "" }).type.data⟩
    colType = "GEOMETRY" || colType = "POINT" || colType = "NULL")

/-- The `CREATE [UNIQUE ]INDEX` f-string of `_generate_indexes`. -/
def mkCreateIndexStatement (tableName idxName : String) (uniq gist : Bool)
    (idxColumns : List String) : String :=
  let uniqueStr : String := if uniq then "UNIQUE " else ""
  let columnsSql := joinSep ", " (idxColumns.map quoteIdent)
  if gist then
    "CREATE " ++ uniqueStr ++ "INDEX " ++ quoteIdent idxName ++ " ON " ++
      quoteIdent tableName ++ " USING GIST (" ++ columnsSql ++ ");"
  else
    "CREATE " ++ uniqueStr ++ "INDEX " ++ quoteIdent idxName ++ " ON " ++
      quoteIdent tableName ++ " (" ++ columnsSql ++ ");"

/-- Translation of `SchemaAgent._generate_indexes`. -/
def generateIndexes (blueprints : List Blueprint) : List String :=
  blueprints.flatMap (fun bp =>
    bp.indexes.filterMap (fun idx =>
      if idx.name ≠ "" ∧ idx.columns ≠ [] then
        some (mkCreateIndexStatement bp.table_name
          (rewriteIndexName bp.table_name idx.name) idx.unique
          (needsGistIndex bp idx.columns) idx.columns)
      else none))

/-! ## C4 — `should_continue_after_sandbox` (workflow.py 27–53) and the
retry counter of `ErrorFixerAgent.run` (error_fixer_agent.py 164–201) -/

/-- A sandbox result, restricted to the fields the routing logic reads. -/
structure SBResult where
  object_name : String
  object_type : String
  executed : Bool
deriving DecidableEq, Repr

/-- `max_retries = 5` in `should_continue_after_sandbox`. -/
def maxSandboxRetries : Nat := 5

/-- `failures = [r for r in sandbox_results if not r.get("executed", False)]`. -/
def sandboxFailures (results : List SBResult) : List SBResult :=
  results.filter (fun r => !r.executed)

/-- Translation of `should_continue_after_sandbox`. -/
def shouldContinueAfterSandbox (results : List SBResult) (retryCount : Nat) :
    String :=
  if sandboxFailures results ≠ [] ∧ retryCount < maxSandboxRetries then
    "error_fixer"
  else "validation"

/-- The retry-counter update at the top of `ErrorFixerAgent.run`
(`state.sandbox_retry_count = state.sandbox_retry_count + 1`): executed once
per repair cycle, before and independent of the per-object fix loop. -/
def errorFixerRetryUpdate (retryCount : Nat) : Nat :=
  retryCount + 1

/-- The sandbox ⇄ error-fixer cycle of the LangGraph workflow: run the
sandbox, route with `should_continue_after_sandbox`, and on `error_fixer`
bump the counter (in `ErrorFixerAgent.run`) and loop back to the sandbox.
`sandboxRun n` is the abstract result list of the sandbox pass after `n`
repair cycles.  The loop carries fuel; `maxSandboxRetries + 1` is proved
sufficient from any starting counter. -/
def sandboxRepairLoop (sandboxRun : Nat → List SBResult) :
    Nat → Nat → Nat × List SBResult
  | 0, retryCount => (retryCount, sandboxRun retryCount)
  | fuel + 1, retryCount =>
    let results := sandboxRun retryCount
    if shouldContinueAfterSandbox results retryCount = "error_fixer" then
      sandboxRepairLoop sandboxRun fuel (errorFixerRetryUpdate retryCount)
    else (retryCount, results)

/-- A concrete sandbox stub that fails the same object on every pass (used
to witness the retry-bound theorem). -/
def alwaysFailingSandboxStub : Nat → List SBResult :=
  fun _ => [ { object_name := "film_list", object_type := "view", executed := false } ]

/-! ## C8 — `SandboxAgent.run` execution order (sandbox_agent.py 35–140) -/

/-- A transformed-DDL artifact (`TransformedDDL` in `state.py`), restricted
to the fields the sandbox scheduler reads. -/
structure TransformedDDL where
  object_name : String
  object_type : String
  target_ddl : String
deriving DecidableEq, Repr

/-- A converted procedure/function/trigger (`ConvertedProcedure` in
`state.py`). -/
structure ConvertedProcedure where
  name : String
  procedure_type : String
  target_code : String
deriving DecidableEq, Repr

instance : Inhabited TransformedDDL :=
  ⟨{ object_name := "", object_type := "", target_ddl := "" }⟩

/-- The hard-coded Sakila fallback order of `_simple_dependency_sort`. -/
def sakilaPriorityOrder : List String :=
  [ "actor", "category", "country", "language", "film_text",
    "city",
    "address", "film",
    "customer", "staff", "store", "film_actor", "film_category", "inventory",
    "rental",
    "payment" ]

/-- `get_priority` of `_simple_dependency_sort` (unknown tables get 999). -/
def getPriority (d : TransformedDDL) : Nat :=
  match sakilaPriorityOrder.indexOf? d.object_name with
  | some i => i
  | none => 999

/-- `_simple_dependency_sort`: Python's stable `sorted` by priority,
modelled with the stable `List.mergeSort`. -/
def simpleDependencySort (tables : List TransformedDDL) : List TransformedDDL :=
  tables.mergeSort (fun a b => getPriority a ≤ getPriority b)

/-- `obj_id.split(":", 1)` guarded by `":" in obj_id`. -/
def splitObjectId (objId : String) : Option (String × String) :=
  if ':' ∈ objId.data then
    some (⟨objId.data.takeWhile (fun c => c ≠ ':')⟩,
          ⟨(objId.data.dropWhile (fun c => c ≠ ':')).drop 1⟩)
  else none

/-- The dependency-order pass of `_sort_by_dependency`: walk the migration
order, popping each `table:{name}` entry out of the name→DDL dict, then
append the leftover dict values in insertion order. -/
def sortByDependency (tables : List TransformedDDL) (depOrder : List String) :
    List TransformedDDL :=
  if depOrder = [] then simpleDependencySort tables
  else
    let ddlByName := tables.foldl (fun m d => dictInsert m d.object_name d) []
    let step := depOrder.foldl
      (fun (acc : List TransformedDDL × List (String × TransformedDDL)) objId =>
        match splitObjectId objId with
        | some (objType, objName) =>
          if objType = "table" ∧ dictMem acc.2 objName then
            (acc.1 ++ [ dictGetD acc.2 objName default ], dictRemove acc.2 objName)
          else acc
        | none => acc)
      ([], ddlByName)
    step.1 ++ step.2.map (fun kv => kv.2)

/-- The sequence of (object_type, object_name) pairs executed by
`SandboxAgent.run`, in execution order: dependency-sorted tables, then
indexes, then deferred FK constraints, then views, then procedures. -/
def sandboxExecutionSequence (ddls : List TransformedDDL)
    (procs : List ConvertedProcedure) (depOrder : List String) :
    List (String × String) :=
  let tables := ddls.filter (fun d => d.object_type = "table")
  let indexes := ddls.filter (fun d => d.object_type = "index")
  let views := ddls.filter (fun d => d.object_type = "view")
  let deferredFks := ddls.filter (fun d => d.object_type = "constraint")
  let orderedTables := sortByDependency tables depOrder
  (orderedTables ++ indexes ++ deferredFks ++ views).map
      (fun d => (d.object_type, d.object_name)) ++
    procs.map (fun p => (p.procedure_type, p.name))

/-- The phase index of an object type in the sandbox schedule (anything that
is not a DDL artifact type runs in the final procedures phase). -/
def phaseOfType (objType : String) : Nat :=
  if objType = "table" then 0
  else if objType = "index" then 1
  else if objType = "constraint" then 2
  else if objType = "view" then 3
  else 4

/-! ## C5 — `convert_wkb_to_point` (data_migration_agent.py 133–158) -/

/-- The value classes of a 64-bit IEEE-754 double. -/
inductive PyFloat where
  | finite (q : ℚ)
  | nan
  | inf
  | ninf
deriving DecidableEq, Repr

/-- Little-endian byte list → natural-number bit pattern (the byte order
used by `struct.unpack('<d', …)`). -/
def leBytesToNat (bytes : List Nat) : Nat :=
  bytes.foldr (fun b acc => b % 256 + 256 * acc) 0

/-- Decode a 64-bit IEEE-754 bit pattern into its exact value.  Finite
values are exact rationals (doubles are dyadic rationals). -/
def decodeDoubleBits (bits : Nat) : PyFloat :=
  let s : ℕ := bits / 2 ^ 63 % 2
  let e : ℕ := bits / 2 ^ 52 % 2 ^ 11
  let m : ℕ := bits % 2 ^ 52
  if e = 2047 then
    if m = 0 then (if s = 1 then .ninf else .inf) else .nan
  else
    let mag : ℚ :=
      if e = 0 then mkRat (m : ℤ) (2 ^ 1074)
      else if e ≤ 1074 then mkRat ((2 ^ 52 + m : ℕ) : ℤ) (2 ^ (1075 - e))
      else (((2 ^ 52 + m) * 2 ^ (e - 1075) : ℕ) : ℚ)
    .finite (if s = 1 then -mag else mag)

/-- `struct.unpack('<d', bytes)[0]` on an 8-byte slice. -/
def unpackDoubleLE (bytes : List Nat) : PyFloat :=
  decodeDoubleBits (leBytesToNat bytes)

/-- Fuelled base-2 logarithm (the fuel is the argument itself, which always
suffices since the argument at least halves each step). -/
def log2Fuel : Nat → Nat → Nat
  | 0, _ => 0
  | fuel + 1, n => if 2 ≤ n then log2Fuel fuel (n / 2) + 1 else 0

/-- Number of binary digits below the point of a dyadic rational: for
`q.den = 2 ^ t` this is `t`. -/
def dyadicScale (q : ℚ) : Nat :=
  log2Fuel q.den q.den

/-- Modelled from the spec: Python's built-in float-to-string conversion
(`f"({x}, {y})"` in `convert_wkb_to_point`), which is a language built-in
and not repository code.  The spec requires the destination dialect's point
literal, e.g. `"(12.5, -3.25)"`.  Python prints the shortest decimal string
that round-trips; for a finite double this equals its exact decimal
expansion whenever that expansion is short, which is the regime the spec's
contract exercises.  The model prints the exact decimal expansion of the
dyadic rational, with `.0` appended to integral values, exactly as Python
does in positional notation. -/
def pyFloatRepr : PyFloat → String
  | .nan => "nan"
  | .inf => "inf"
  | .ninf => "-inf"
  | .finite q =>
    let t := dyadicScale q
    let scaled := q.num.natAbs * 10 ^ t / q.den
    let ds := Nat.repr scaled
    let body :=
      if t = 0 then ds ++ ".0"
      else
        let l := (List.replicate (t + 1 - ds.data.length) '0') ++ ds.data
        let intPart : String := ⟨l.take (l.length - t)⟩
        let fracPart : String := ⟨l.drop (l.length - t)⟩
        intPart ++ "." ++ fracPart
    if q < 0 then "-" ++ body else body

/-- Translation of `convert_wkb_to_point`, on a byte list (the function's
`None` input short-circuit is the `Option.bind` of the caller; here the
input is the byte payload itself).  Inputs of length 21–24 make
`struct.unpack('<d', wkb_bytes[17:25])` raise `struct.error` (fewer than 8
bytes), which the blanket `except` turns into `None`; that is the second
guard below. -/
def convertWkbToPoint (wkb : List Nat) : Option String :=
  if wkb.length < 21 then none
  else if wkb.length < 25 then none
  else
    let x := unpackDoubleLE ((wkb.drop 9).take 8)
    let y := unpackDoubleLE ((wkb.drop 17).take 8)
    some ("(" ++ pyFloatRepr x ++ ", " ++ pyFloatRepr y ++ ")")

/-! ## C10 — destination-clearing behaviour of
`DataMigrationAgent._migrate_table` (data_migration_agent.py 399–465) and
`DataMigrator.migrate_table` (data_migrator.py 288–362)

The statements each implementation issues against the destination database
are modelled as a trace of operations over a state mapping table names to
row lists. -/

/-- A destination-database statement relevant to table contents. -/
inductive DbOp (Row : Type) where
  | deleteFrom (table : String)
  | insertRows (table : String) (rows : List Row)
  | truncateCascade (table : String)
deriving DecidableEq

/-- Semantics of one statement.  `cascades u t` says the destination has a
(transitive) FK path from table `u` to table `t`, so `TRUNCATE t CASCADE`
would also empty `u`; `DELETE FROM t` never cascades. -/
def applyDbOp {Row : Type} (cascades : String → String → Bool)
    (st : String → List Row) : DbOp Row → String → List Row
  | .deleteFrom t => fun u => if u = t then [] else st u
  | .insertRows t rows => fun u => if u = t then st u ++ rows else st u
  | .truncateCascade t => fun u => if u = t ∨ cascades u t then [] else st u

/-- Run a statement trace left to right. -/
def applyDbOps {Row : Type} (cascades : String → String → Bool)
    (st : String → List Row) : List (DbOp Row) → String → List Row
  | [] => st
  | op :: ops => applyDbOps cascades (applyDbOp cascades st op) ops

/-- The offset-paginated batch loop (`LIMIT :limit OFFSET :offset` until an
empty page), as successive chunks of the source row list; fuelled so it
computes, with the row count as always-sufficient fuel. -/
def pyChunksAux {Row : Type} (batchSize : Nat) :
    Nat → List Row → List (List Row)
  | 0, _ => []
  | fuel + 1, rows =>
    if rows.isEmpty then []
    else rows.take batchSize :: pyChunksAux batchSize fuel (rows.drop batchSize)

/-- All batches fetched for a source row list. -/
def pyChunks {Row : Type} (batchSize : Nat) (rows : List Row) :
    List (List Row) :=
  pyChunksAux batchSize rows.length rows

/-- The destination statements issued by `DataMigrationAgent._migrate_table`
for one table: nothing when the source reports no columns (early return),
otherwise `DELETE FROM "{table}"` followed by one bulk insert per fetched
batch.  (Value transformation does not change which table is written.) -/
def agentMigrateTableOps {Row : Type} (cols : String → List String)
    (src : String → List Row) (batchSize : Nat) (t : String) :
    List (DbOp Row) :=
  if cols t = [] then []
  else
    DbOp.deleteFrom t ::
      (pyChunks batchSize (src t)).map (fun b => DbOp.insertRows t b)

/-- The destination statements issued by `DataMigrator.migrate_table` for
one table: one bulk insert per fetched batch — this implementation issues
no destination-clearing statement at all. -/
def migratorMigrateTableOps {Row : Type} (src : String → List Row)
    (batchSize : Nat) (t : String) : List (DbOp Row) :=
  (pyChunks batchSize (src t)).map (fun b => DbOp.insertRows t b)

/-- Discriminator: is this statement a `DELETE FROM`? -/
def isDeleteOp {Row : Type} : DbOp Row → Bool
  | .deleteFrom _ => true
  | _ => false

/-- Discriminator: is this statement a `TRUNCATE … CASCADE`? -/
def isTruncateOp {Row : Type} : DbOp Row → Bool
  | .truncateCascade _ => true
  | _ => false

/-- The table a statement writes to. -/
def dbOpTable {Row : Type} : DbOp Row → String
  | .deleteFrom t => t
  | .insertRows t _ => t
  | .truncateCascade t => t

/-- Proof-level abbreviation for the Kahn invariant of `_topological_sort`:
the in-degree counter value after all edges into the already-dequeued
`result` nodes have been decremented. -/
def degAt (graph : String → List String) (degInit : String → Int)
    (result : List String) (k : String) : Int :=
  degInit k - ((result.map (fun m => (((graph m).count k : Nat) : Int))).sum)

/-- The invariant of the `while queue:` loop of `_topological_sort`. -/
def KahnState (keys : List String) (graph : String → List String)
    (degInit : String → Int) (queue : List String) (deg : String → Int)
    (result : List String) : Prop :=
  (∀ k ∈ result, k ∈ keys) ∧
  (∀ k ∈ queue, k ∈ keys) ∧
  (result ++ queue).Nodup ∧
  (∀ k ∈ keys, deg k = degAt graph degInit result k) ∧
  (∀ k ∈ result ++ queue, deg k = 0) ∧
  (∀ k ∈ keys, deg k = 0 → k ∈ result ++ queue) ∧
  (∀ (i : Nat) (h : i < result.length), ∀ m ∈ keys,
    result.get ⟨i, h⟩ ∈ graph m → m ∈ result.take i)

/-- The invariant of the inner `for dependent in graph[node]:` loop, with
`ds` the decrements still pending. -/
def PendState (keys : List String) (graph : String → List String)
    (degInit : String → Int) (result' : List String) (ds : List String)
    (deg : String → Int) (queue : List String) : Prop :=
  (∀ k ∈ keys, deg k = degAt graph degInit result' k + ((ds.count k : Nat) : Int)) ∧
  (∀ k ∈ queue, k ∈ keys) ∧
  (∀ k ∈ ds, k ∈ keys) ∧
  (result' ++ queue).Nodup ∧
  (∀ k ∈ result' ++ queue, deg k = 0) ∧
  (∀ k ∈ keys, deg k = 0 → k ∈ result' ++ queue)

/-- A two-node acyclic dependency graph used to exercise
`_topological_sort` on a concrete input. -/
def c1WitnessNodes : List DependencyNode :=
  [ ⟨ "a", "a", "table", "low" ⟩, ⟨ "b", "b", "table", "low" ⟩ ]

/-- The single edge of the two-node graph: `a` depends on `b`. -/
def c1WitnessEdges : List DependencyEdge :=
  [ ⟨ "a", "b", "foreign_key" ⟩ ]

/-- A four-node graph in which `c1` and `c2` form a two-cycle, `a` depends
on `c1` and on `b`, and `b` depends on `c2`: every node is starved of a
zero in-degree by the cycle, so the Kahn phase emits nothing. -/
def c1CycleNodes : List DependencyNode :=
  [ ⟨ "a", "a", "table", "low" ⟩, ⟨ "b", "b", "table", "low" ⟩,
    ⟨ "c1", "c1", "table", "low" ⟩, ⟨ "c2", "c2", "table", "low" ⟩ ]

/-- The edges of the cycle-starved graph. -/
def c1CycleEdges : List DependencyEdge :=
  [ ⟨ "c1", "c2", "foreign_key" ⟩, ⟨ "c2", "c1", "foreign_key" ⟩,
    ⟨ "a", "c1", "foreign_key" ⟩, ⟨ "a", "b", "foreign_key" ⟩,
    ⟨ "b", "c2", "foreign_key" ⟩ ]

/-- The claim-level reference relation: table `a` declares a foreign key
whose referred table is `b` (used to state what `_detect_circular_fks`
reports). -/
def FkRefs (tables : List TableMeta) (a b : String) : Prop :=
  ∃ t ∈ tables, t.name = a ∧ ∃ fk ∈ t.foreign_keys, fk.referred_table = b

/-! # Theorems -/

/-! ## C4 — bounded sandbox ⇄ repair loop -/

/-- Whatever route is taken internally, the loop always hands a state to the
validation stage once the counter can no longer stay below the bound. -/
theorem sandboxRepairLoop_exits_to_validation
    (sandboxRun : Nat → List SBResult) :
    ∀ fuel retryCount, maxSandboxRetries + 1 ≤ fuel + retryCount →
      shouldContinueAfterSandbox
        (sandboxRepairLoop sandboxRun fuel retryCount).2
        (sandboxRepairLoop sandboxRun fuel retryCount).1 = "validation" := by
  intro fuel
  induction fuel with
  | zero =>
    intro retryCount h
    simp only [sandboxRepairLoop]
    have hge : maxSandboxRetries < retryCount := by omega
    simp only [shouldContinueAfterSandbox]
    rw [if_neg]
    intro hcon
    omega
  | succ n ih =>
    intro retryCount h
    simp only [sandboxRepairLoop]
    by_cases hroute :
        shouldContinueAfterSandbox (sandboxRun retryCount) retryCount = "error_fixer"
    · rw [if_pos hroute]
      exact ih (errorFixerRetryUpdate retryCount) (by simp [errorFixerRetryUpdate]; omega)
    · rw [if_neg hroute]
      simp only
      by_cases hfail : sandboxFailures (sandboxRun retryCount) ≠ [] ∧
          retryCount < maxSandboxRetries
      · exact absurd (by simp [shouldContinueAfterSandbox, if_pos hfail]) hroute
      · simp [shouldContinueAfterSandbox, if_neg hfail]

/-- Under a sandbox stub that keeps failing, the loop performs exactly
`maxSandboxRetries` repair cycles and then stops with the failures of the
last pass. -/
theorem sandboxRepairLoop_exhausts_bound
    (sandboxRun : Nat → List SBResult)
    (hfail : ∀ n, sandboxFailures (sandboxRun n) ≠ []) :
    ∀ fuel retryCount, maxSandboxRetries ≤ fuel + retryCount →
      retryCount ≤ maxSandboxRetries →
      sandboxRepairLoop sandboxRun fuel retryCount
        = (maxSandboxRetries, sandboxRun maxSandboxRetries) := by
  intro fuel
  induction fuel with
  | zero =>
    intro retryCount h1 h2
    have : retryCount = maxSandboxRetries := by omega
    subst this
    simp [sandboxRepairLoop]
  | succ n ih =>
    intro retryCount h1 h2
    simp only [sandboxRepairLoop]
    by_cases hlt : retryCount < maxSandboxRetries
    · rw [if_pos]
      · exact ih (errorFixerRetryUpdate retryCount)
          (by simp [errorFixerRetryUpdate]; omega)
          (by simp [errorFixerRetryUpdate]; omega)
      · simp [shouldContinueAfterSandbox, hfail retryCount, hlt]
    · have hr : retryCount = maxSandboxRetries := by omega
      subst hr
      have hroute : shouldContinueAfterSandbox (sandboxRun maxSandboxRetries)
          maxSandboxRetries ≠ "error_fixer" := by
        simp [shouldContinueAfterSandbox, hlt]
      rw [if_neg hroute]

/-- C4: the sandbox–repair loop terminates.  The retry counter is bumped
exactly once per repair cycle — `errorFixerRetryUpdate`, the counter write
at the entry of `ErrorFixerAgent.run`, adds one regardless of how many
objects failed — and `should_continue_after_sandbox` therefore routes to
the validation stage after at most `max_retries = 5` repair cycles: with a
sandbox stub that always reports a failure, the loop runs exactly five
repair cycles and then proceeds with the still-failing results recorded,
raising no error. -/
theorem sandbox_repair_loop_bounded_termination
    (sandboxRun : Nat → List SBResult)
    (hfail : ∀ n, sandboxFailures (sandboxRun n) ≠ []) :
    (∀ fuel retryCount, maxSandboxRetries + 1 ≤ fuel + retryCount →
      shouldContinueAfterSandbox
        (sandboxRepairLoop sandboxRun fuel retryCount).2
        (sandboxRepairLoop sandboxRun fuel retryCount).1 = "validation")
    ∧ sandboxRepairLoop sandboxRun (maxSandboxRetries + 1) 0
        = (maxSandboxRetries, sandboxRun maxSandboxRetries)
    ∧ errorFixerRetryUpdate maxSandboxRetries - errorFixerRetryUpdate 0
        = maxSandboxRetries - 0
    ∧ sandboxFailures (sandboxRun maxSandboxRetries) ≠ [] := by
  refine ⟨sandboxRepairLoop_exits_to_validation sandboxRun, ?_, by simp [errorFixerRetryUpdate], hfail _⟩
  exact sandboxRepairLoop_exhausts_bound sandboxRun hfail _ 0 (by omega) (by omega)

/-- Witness for C4 at a concrete always-failing sandbox stub. -/
theorem sandbox_repair_loop_bounded_termination_witness :
    (∀ n, sandboxFailures (alwaysFailingSandboxStub n) ≠ []) ∧
    sandboxRepairLoop alwaysFailingSandboxStub (maxSandboxRetries + 1) 0
      = (maxSandboxRetries, alwaysFailingSandboxStub maxSandboxRetries) :=
  have h : ∀ n, sandboxFailures (alwaysFailingSandboxStub n) ≠ [] := fun _ => by
    simp only [alwaysFailingSandboxStub]; decide
  ⟨h, (sandbox_repair_loop_bounded_termination alwaysFailingSandboxStub h).2.1⟩

/-! ## C10 — destination clearing in the data movers -/

/-- A trace whose statements are all non-cascading writes to table `t`
leaves every other table's rows unchanged. -/
theorem applyDbOps_frame {Row : Type} (cascades : String → String → Bool)
    (ops : List (DbOp Row)) (t : String)
    (hops : ∀ op ∈ ops, isTruncateOp op = false ∧ dbOpTable op = t) :
    ∀ (st : String → List Row) (u : String), u ≠ t →
      applyDbOps cascades st ops u = st u := by
  induction ops with
  | nil => intro st u _; rfl
  | cons op rest ih =>
    intro st u hu
    have hop := hops op (List.mem_cons_self op rest)
    have hrest : ∀ op' ∈ rest, isTruncateOp op' = false ∧ dbOpTable op' = t :=
      fun op' h' => hops op' (List.mem_cons_of_mem op h')
    have hstep : applyDbOp cascades st op u = st u := by
      cases op with
      | deleteFrom t' =>
        have : t' = t := hop.2
        subst this
        simp [applyDbOp, hu]
      | insertRows t' rows =>
        have : t' = t := hop.2
        subst this
        simp [applyDbOp, hu]
      | truncateCascade t' =>
        exact absurd hop.1 (by simp [isTruncateOp])
    calc applyDbOps cascades (applyDbOp cascades st op) rest u
        = applyDbOp cascades st op u := ih hrest _ u hu
      _ = st u := hstep

/-- C10, amended: in `DataMigrationAgent._migrate_table` — the
implementation the pipeline workflow runs — every migrated table with a
nonempty source column list is cleared with a `DELETE FROM` statement (not
`TRUNCATE … CASCADE`) before its first batch insert, the clearing empties
exactly that table, and the whole per-table trace leaves every other
destination table's rows unchanged.  (The standalone
`DataMigrator.migrate_table` tool, by contrast, issues no clearing
statement at all — see the counterexample.) -/
theorem agent_migrate_table_delete_first {Row : Type}
    (cols : String → List String) (src : String → List Row)
    (cascades : String → String → Bool) (dest : String → List Row)
    (batchSize : Nat) (t : String) (hc : cols t ≠ []) :
    (∃ rest, agentMigrateTableOps cols src batchSize t
        = DbOp.deleteFrom t :: rest ∧
        ∀ op ∈ rest, ∃ b, op = DbOp.insertRows t b)
    ∧ (∀ op ∈ @agentMigrateTableOps Row cols src batchSize t,
        isTruncateOp op = false)
    ∧ applyDbOp cascades dest (DbOp.deleteFrom t) t = ([] : List Row)
    ∧ (∀ u, u ≠ t →
        applyDbOps cascades dest (agentMigrateTableOps cols src batchSize t) u
          = dest u) := by
  have hops : @agentMigrateTableOps Row cols src batchSize t
      = DbOp.deleteFrom t ::
        (pyChunks batchSize (src t)).map (fun b => DbOp.insertRows t b) := by
    simp [agentMigrateTableOps, hc]
  refine ⟨⟨(pyChunks batchSize (src t)).map (fun b => DbOp.insertRows t b),
      hops, ?_⟩, ?_, by simp [applyDbOp], ?_⟩
  · intro op hop
    rcases List.mem_map.mp hop with ⟨b, _, hb⟩
    exact ⟨b, hb.symm⟩
  · intro op hop
    rw [hops, List.mem_cons] at hop
    rcases hop with rfl | hop
    · simp [isTruncateOp]
    · rcases List.mem_map.mp hop with ⟨b, _, hb⟩
      simp [← hb, isTruncateOp]
  · intro u hu
    refine applyDbOps_frame cascades _ t ?_ dest u hu
    intro op hop
    rw [hops, List.mem_cons] at hop
    rcases hop with rfl | hop
    · simp [isTruncateOp, dbOpTable]
    · rcases List.mem_map.mp hop with ⟨b, _, hb⟩
      simp [← hb, isTruncateOp, dbOpTable]

/-- Witness for the amended C10 at a concrete table and destination. -/
theorem agent_migrate_table_delete_first_witness :
    ((fun _ : String => [ "id" ]) "payment" ≠ []) ∧
    (∀ u, u ≠ "payment" →
      @applyDbOps Nat (fun _ _ => false)
        (fun u => if u = "rental" then [ 7 ] else [])
        (agentMigrateTableOps (fun _ => [ "id" ]) (fun _ => [ 1, 2 ]) 1000 "payment") u
        = (fun u => if u = "rental" then [ 7 ] else []) u) :=
  ⟨by decide,
   (agent_migrate_table_delete_first (fun _ => [ "id" ]) (fun _ => [ 1, 2 ])
      (fun _ _ => false) (fun u => if u = "rental" then [ 7 ] else [])
      1000 "payment" (by decide)).2.2.2⟩

/-- Counterexample to C10 as stated: `DataMigrator.migrate_table` (one of
the two cited data movers) issues no `DELETE` at all, so pre-existing
destination rows survive: with one old row `0` in the destination table and
one source row `1`, the destination ends with both rows, and no statement
of the trace is a `DELETE FROM`. -/
theorem migrator_migrate_table_no_clear_counterexample :
    (∀ op ∈ @migratorMigrateTableOps Nat
        (fun _ => [ 1 ]) 1000 "payment", isDeleteOp op = false) ∧
    applyDbOps (fun _ _ => false) (fun u => if u = "payment" then [ 0 ] else [])
        (migratorMigrateTableOps (fun _ => [ 1 ]) 1000 "payment") "payment"
      = [ 0, 1 ] ∧
    (0 : Nat) ∈ applyDbOps (fun _ _ => false)
        (fun u => if u = "payment" then [ 0 ] else [])
        (migratorMigrateTableOps (fun _ => [ 1 ]) 1000 "payment") "payment" := by
  refine ⟨?_, by decide, by decide⟩
  intro op hop
  rcases List.mem_map.mp hop with ⟨b, _, hb⟩
  simp [← hb, isDeleteOp]

/-! ## C3 — deferred-FK completeness -/

/-- A `filterMap` by a guard is a filter followed by a map. -/
theorem filterMap_guard_eq_filter_map {α β : Type} (p : α → Bool) (f : α → β)
    (l : List α) :
    l.filterMap (fun a => if p a then some (f a) else none)
      = (l.filter p).map f := by
  induction l with
  | nil => rfl
  | cons a rest ih =>
    by_cases h : p a <;> simp [List.filterMap_cons, List.filter_cons, h, ih]

/-- The `is_deferred` flag is never consulted by the ALTER-TABLE pass. -/
theorem generateDeferredFks_ignores_circular_flag (b : Bool) :
    ∀ blueprints : List Blueprint,
      generateDeferredFks (setAllDeferredFlags b blueprints)
        = generateDeferredFks blueprints := by
  intro blueprints
  induction blueprints with
  | nil => rfl
  | cons bp rest ih =>
    simp only [generateDeferredFks, setAllDeferredFlags, List.map_cons,
      List.flatMap_cons] at ih ⊢
    rw [List.filterMap_map, ih]
    rfl

/-- C3, amended: the ALTER-TABLE pass emits exactly one
`ALTER TABLE … ADD CONSTRAINT … FOREIGN KEY …` statement per declared FK
that has a nonempty column list, a referenced table and nonempty referenced
columns — regardless of its `is_deferred` (circular) flag — while FKs
missing one of those fields are silently skipped by the
`if not columns or not ref_table or not ref_columns: continue` guard. -/
theorem generateDeferredFks_complete (blueprints : List Blueprint) :
    generateDeferredFks blueprints
      = ((declaredFks blueprints).filter (fun p => fkComplete p.2)).map
          (fun p => mkAlterFkStatement p.1 p.2)
    ∧ (∀ b, generateDeferredFks (setAllDeferredFlags b blueprints)
        = generateDeferredFks blueprints)
    ∧ (generateDeferredFks blueprints).length
        = ((declaredFks blueprints).filter (fun p => fkComplete p.2)).length := by
  have key : generateDeferredFks blueprints
      = ((declaredFks blueprints).filter (fun p => fkComplete p.2)).map
          (fun p => mkAlterFkStatement p.1 p.2) := by
    induction blueprints with
    | nil => rfl
    | cons bp rest ih =>
      simp only [generateDeferredFks, declaredFks, List.flatMap_cons,
        List.filter_append, List.map_append] at ih ⊢
      rw [ih]
      congr 1
      rw [filterMap_guard_eq_filter_map fkComplete (mkAlterFkStatement bp.table_name)]
      rw [List.filter_map, List.map_map]
      rfl
  exact ⟨key, fun b => generateDeferredFks_ignores_circular_flag b blueprints,
    by rw [key, List.length_map]⟩

/-- Counterexample to C3 as stated: a declared FK with an empty column list
is dropped from the ALTER-TABLE pass without any statement or error. -/
theorem generateDeferredFks_drops_fk_counterexample :
    (declaredFks
        [ { table_name := "orphan",
            outgoing_fks :=
              [ { name := "fk_orphan_parent", columns := [],
                  references_table := "parent",
                  references_columns := [ "id" ], is_deferred := false } ],
            indexes := [], columns := [] } ]).length = 1
    ∧ generateDeferredFks
        [ { table_name := "orphan",
            outgoing_fks :=
              [ { name := "fk_orphan_parent", columns := [],
                  references_table := "parent",
                  references_columns := [ "id" ], is_deferred := false } ],
            indexes := [], columns := [] } ] = [] := by
  decide

/-! ## C6 — index naming -/

/-- C6, amended: every emitted CREATE INDEX statement is built from the
rewritten name `rewriteIndexName table name`, and the rewrite behaves as
the source does: a name already starting with `idx_{table}` is kept, a name
starting with `idx_` (including `idx_fk_`) but not with `idx_{table}` is
rewritten to start with `idx_{table}_`, and any other name is emitted
entirely unchanged — so index names are *not* always prefixed with
`idx_{table_name}_`. -/
theorem generateIndexes_naming (blueprints : List Blueprint) :
    (∀ stmt ∈ generateIndexes blueprints, ∃ bp ∈ blueprints,
        ∃ idx ∈ bp.indexes, idx.name ≠ "" ∧ idx.columns ≠ [] ∧
        stmt = mkCreateIndexStatement bp.table_name
          (rewriteIndexName bp.table_name idx.name) idx.unique
          (needsGistIndex bp idx.columns) idx.columns)
    ∧ (∀ tableName idxName : String,
        ( "idx_" ++ tableName).data <+: idxName.data →
        rewriteIndexName tableName idxName = idxName)
    ∧ (∀ tableName idxName : String,
        ¬ ( "idx_" ++ tableName).data <+: idxName.data →
        ( "idx_".data) <+: idxName.data →
        ( "idx_" ++ tableName ++ "_").data <+:
          (rewriteIndexName tableName idxName).data)
    ∧ (∀ tableName idxName : String,
        ¬ ( "idx_".data) <+: idxName.data →
        rewriteIndexName tableName idxName = idxName) := by
  refine ⟨?_, ?_, ?_, ?_⟩
  · intro stmt hstmt
    rcases List.mem_flatMap.mp hstmt with ⟨bp, hbp, hmem⟩
    rcases List.mem_filterMap.mp hmem with ⟨idx, hidx, hval⟩
    by_cases h : idx.name ≠ "" ∧ idx.columns ≠ []
    · rw [if_pos h] at hval
      exact ⟨bp, hbp, idx, hidx, h.1, h.2, (Option.some.inj hval).symm⟩
    · rw [if_neg h] at hval
      exact absurd hval (by simp)
  · intro tableName idxName h
    rw [rewriteIndexName, if_pos (List.isPrefixOf_iff_prefix.mpr h)]
  · intro tableName idxName h1 h2
    rw [rewriteIndexName,
      if_neg (fun hcon => h1 (List.isPrefixOf_iff_prefix.mp hcon)),
      if_pos (Or.inr (List.isPrefixOf_iff_prefix.mpr h2))]
    rw [String.data_append]
    exact List.prefix_append _ _
  · intro tableName idxName h
    have hpre : ¬ ( "idx_" ++ tableName).data <+: idxName.data := by
      intro hcon
      refine h (List.IsPrefix.trans ?_ hcon)
      rw [String.data_append]
      exact List.prefix_append _ _
    have hfk : ¬ ( "idx_fk_".data) <+: idxName.data := by
      intro hcon
      exact h (List.IsPrefix.trans (by decide) hcon)
    rw [rewriteIndexName,
      if_neg (fun hcon => hpre (List.isPrefixOf_iff_prefix.mp hcon)),
      if_neg (fun hcon => hcon.elim
        (fun hc => hfk (List.isPrefixOf_iff_prefix.mp hc))
        (fun hc => h (List.isPrefixOf_iff_prefix.mp hc)))]

/-- Witness for the amended C6: a concrete `idx_fk_…` index name is
rewritten to carry the table name. -/
theorem generateIndexes_naming_witness :
    (¬ ( "idx_" ++ "city").data <+: ( "idx_fk_country_id" : String).data) ∧
    ( "idx_".data) <+: ( "idx_fk_country_id" : String).data ∧
    ( "idx_" ++ "city" ++ "_").data <+:
      (rewriteIndexName "city" "idx_fk_country_id").data :=
  ⟨by decide, by decide,
   (generateIndexes_naming []).2.2.1 "city" "idx_fk_country_id"
     (by decide) (by decide)⟩

/-- Counterexample to C6 as stated: an index whose source name does not
start with `idx_` (here `uq_name` on table `country`) is emitted with its
name unchanged, which does not start with `idx_country_`. -/
theorem generateIndexes_naming_counterexample :
    generateIndexes
        [ { table_name := "country", outgoing_fks := [],
            indexes := [ { name := "uq_name", columns := [ "name" ],
                           unique := false } ],
            columns := [] } ]
      = [ "CREATE INDEX \"uq_name\" ON \"country\" (\"name\");" ]
    ∧ rewriteIndexName "country" "uq_name" = "uq_name"
    ∧ ¬ ( "idx_country_".data) <+: ( "uq_name" : String).data := by
  refine ⟨by decide, by decide, by decide⟩

/-! ## C9 — the source-to-target type mapping -/

/-- C9, amended: the explicit finite mapping of `SQLTransformer.map_type`
sends TINYINT to SMALLINT, TINYINT(1) to BOOLEAN, every BLOB-family type to
BYTEA, JSON to JSONB, ENUM to plain TEXT (no CHECK constraint is emitted by
the type mapper), SET to TEXT[], POINT to POINT — and GEOMETRY to GEOMETRY,
not to POINT. -/
theorem mapType_finite_table :
    mapType "TINYINT" = "SMALLINT"
    ∧ mapType "TINYINT(1)" = "BOOLEAN"
    ∧ mapType "TINYBLOB" = "BYTEA"
    ∧ mapType "BLOB" = "BYTEA"
    ∧ mapType "MEDIUMBLOB" = "BYTEA"
    ∧ mapType "LONGBLOB" = "BYTEA"
    ∧ mapType "JSON" = "JSONB"
    ∧ mapType "ENUM('G','PG','PG-13','R','NC-17')" = "TEXT"
    ∧ mapType "SET('Trailers','Commentaries')" = "TEXT[]"
    ∧ mapType "POINT" = "POINT"
    ∧ mapType "GEOMETRY" = "GEOMETRY" := by
  decide

/-- Counterexample to C9 as stated: ENUM maps to plain `TEXT` with no CHECK
constraint attached, and GEOMETRY maps to `GEOMETRY`, not to the point
type. -/
theorem mapType_enum_geometry_counterexample :
    mapType "ENUM('G','PG')" = "TEXT"
    ∧ ¬ ( "CHECK".data) <:+: (mapType "ENUM('G','PG')").data
    ∧ mapType "GEOMETRY" = "GEOMETRY"
    ∧ mapType "GEOMETRY" ≠ "POINT" := by
  decide

/-! ## C2 — the two-pass invariant on pass-1 CREATE TABLE statements -/

/-- Stripping whitespace from both ends yields a contiguous slice of the
input. -/
theorem pyStripChars_infix (l : List Char) : pyStripChars l <:+: l := by
  unfold pyStripChars
  have h1 : l.dropWhile pyIsSpace <:+ l := List.dropWhile_suffix pyIsSpace
  have h2 : ((l.dropWhile pyIsSpace).reverse.dropWhile pyIsSpace).reverse
      <+: l.dropWhile pyIsSpace := by
    apply List.reverse_suffix.mp
    rw [List.reverse_reverse]
    exact List.dropWhile_suffix pyIsSpace
  exact h2.isInfix.trans h1.isInfix

/-- The fence-stripping phase yields a contiguous slice of the input. -/
theorem cleanSqlCore_infix (l : List Char) : cleanSqlCore l <:+: l := by
  unfold cleanSqlCore
  have h1 : pyStripChars l <:+: l := pyStripChars_infix l
  set sql1 := pyStripChars l with hsql1
  have h2 : (if ( "```sql".data).isPrefixOf sql1 then sql1.drop 6
      else if ( "```".data).isPrefixOf sql1 then sql1.drop 3
      else sql1) <:+: sql1 := by
    split
    · exact (List.drop_suffix 6 sql1).isInfix
    · split
      · exact (List.drop_suffix 3 sql1).isInfix
      · exact List.infix_rfl
  set sql2 := (if ( "```sql".data).isPrefixOf sql1 then sql1.drop 6
      else if ( "```".data).isPrefixOf sql1 then sql1.drop 3
      else sql1) with hsql2
  have h3 : (if ( "```".data).isSuffixOf sql2 then sql2.take (sql2.length - 3)
      else sql2) <:+: sql2 := by
    split
    · exact (List.take_prefix _ sql2).isInfix
    · exact List.infix_rfl
  exact (( pyStripChars_infix _).trans h3).trans (h2.trans h1)

/-- An infix of `c ++ [x]` whose last element is not `x` is an infix of
`c`. -/
theorem infix_of_infix_concat {α : Type} {pat c : List α} {x : α}
    (h : pat <:+: c ++ [ x ]) (hlast : pat.getLast? ≠ some x) :
    pat <:+: c := by
  rcases h with ⟨u, v, huv⟩
  rcases List.eq_nil_or_concat v with rfl | ⟨v', x', rfl⟩
  · rcases List.eq_nil_or_concat pat with rfl | ⟨p', y, hp⟩
    · exact List.nil_infix
    · exfalso
      apply hlast
      rw [List.concat_eq_append] at hp
      have hy : (u ++ pat).getLast? = some x := by
        rw [show u ++ pat = c ++ [ x ] from by simpa using huv]
        exact List.getLast?_concat c
      rw [hp] at hy ⊢
      rw [← List.append_assoc, List.getLast?_concat] at hy
      rw [List.getLast?_concat]
      exact hy
  · refine ⟨u, v', ?_⟩
    rw [List.concat_eq_append] at huv
    have huv' : (u ++ pat ++ v') ++ [ x' ] = c ++ [ x ] := by
      simpa [List.append_assoc] using huv
    have := congrArg List.dropLast huv'
    simpa using this

/-- C2, amended: the pass-1 CREATE TABLE statement is the external text
collaborator's output passed through `_clean_sql_output`, which strips
code fences and appends a semicolon but performs no FK/index scrubbing;
so the statement is free of `FOREIGN KEY` and `CREATE INDEX` exactly when
the collaborator's raw output is — the cleanup step never introduces
either substring (and, per the counterexample, never removes one). -/
theorem cleanSqlOutput_preserves_absence (sql : String)
    (hfk : ¬ ( "FOREIGN KEY".data) <:+: sql.data)
    (hci : ¬ ( "CREATE INDEX".data) <:+: sql.data) :
    ¬ ( "FOREIGN KEY".data) <:+: (cleanSqlOutput sql).data ∧
    ¬ ( "CREATE INDEX".data) <:+: (cleanSqlOutput sql).data := by
  have key : ∀ pat : List Char, pat.getLast? ≠ some ';' →
      ¬ pat <:+: sql.data → ¬ pat <:+: (cleanSqlOutput sql).data := by
    intro pat hlast habs hcon
    have hcore : cleanSqlCore sql.data <:+: sql.data := cleanSqlCore_infix _
    have : (cleanSqlOutput sql).data = cleanSqlChars sql.data := rfl
    rw [this] at hcon
    unfold cleanSqlChars at hcon
    simp only at hcon
    split at hcon
    · exact habs (hcon.trans hcore)
    · exact habs ((infix_of_infix_concat hcon hlast).trans hcore)
  exact ⟨key _ (by decide) hfk, key _ (by decide) hci⟩

/-- Witness for the amended C2 at a concrete fenced LLM response. -/
theorem cleanSqlOutput_preserves_absence_witness :
    (¬ ( "FOREIGN KEY".data) <:+:
        ( "```sql\nCREATE TABLE \"actor\" (\"actor_id\" SERIAL PRIMARY KEY)\n```" : String).data) ∧
    ¬ ( "FOREIGN KEY".data) <:+:
      (cleanSqlOutput
        "```sql\nCREATE TABLE \"actor\" (\"actor_id\" SERIAL PRIMARY KEY)\n```").data :=
  ⟨by decide,
   (cleanSqlOutput_preserves_absence
      "```sql\nCREATE TABLE \"actor\" (\"actor_id\" SERIAL PRIMARY KEY)\n```"
      (by decide) (by decide)).1⟩

/-- Counterexample to C2 as stated: when the collaborator's output does
contain a FOREIGN KEY clause, `_clean_sql_output` keeps it, so the emitted
pass-1 CREATE TABLE statement violates the invariant — the code enforces
nothing. -/
theorem cleanSqlOutput_keeps_foreign_key_counterexample :
    cleanSqlOutput
        "CREATE TABLE \"city\" (\"country_id\" SMALLINT, FOREIGN KEY (\"country_id\") REFERENCES \"country\" (\"country_id\"))"
      = "CREATE TABLE \"city\" (\"country_id\" SMALLINT, FOREIGN KEY (\"country_id\") REFERENCES \"country\" (\"country_id\"));"
    ∧ ( "FOREIGN KEY".data) <:+:
      (cleanSqlOutput
        "CREATE TABLE \"city\" (\"country_id\" SMALLINT, FOREIGN KEY (\"country_id\") REFERENCES \"country\" (\"country_id\"))").data := by
  refine ⟨by decide, by decide⟩

/-! ## C5 — WKB point decoding -/

/-- C5: the bit-exact WKB point contract.  Any byte sequence laid out as a
4-byte SRID, one byte-order byte, a 4-byte geometry-type code, then two
8-byte little-endian doubles (X at offset 9, Y at offset 17, hence at least
25 bytes — a shorter buffer cannot carry the Y double and is malformed)
decodes to the point literal built from the two doubles, with the SRID,
byte-order and type fields discarded; the specified 25-byte buffer decodes
to exactly `"(12.5, -3.25)"`; and every buffer shorter than 21 bytes (as
well as the malformed lengths 21–24, whose short Y slice raises the caught
`struct.error`) yields `none` rather than an error. -/
theorem convertWkbToPoint_contract :
    (∀ (srid gtype xb yb extra : List Nat) (bo : Nat),
      srid.length = 4 → gtype.length = 4 → xb.length = 8 → yb.length = 8 →
      convertWkbToPoint (srid ++ bo :: (gtype ++ xb ++ yb ++ extra))
        = some ("(" ++ pyFloatRepr (unpackDoubleLE xb) ++ ", " ++
            pyFloatRepr (unpackDoubleLE yb) ++ ")"))
    ∧ convertWkbToPoint
        [ 0, 0, 0, 0, 1, 1, 0, 0, 0,
          0, 0, 0, 0, 0, 0, 41, 64,
          0, 0, 0, 0, 0, 0, 10, 192 ] = some "(12.5, -3.25)"
    ∧ (∀ wkb : List Nat, wkb.length < 21 → convertWkbToPoint wkb = none)
    ∧ (∀ wkb : List Nat, 21 ≤ wkb.length → wkb.length < 25 →
        convertWkbToPoint wkb = none) := by
  refine ⟨?_, by decide, ?_, ?_⟩
  · intro srid gtype xb yb extra bo hsrid hgtype hx hy
    have hlen : (srid ++ bo :: (gtype ++ xb ++ yb ++ extra)).length
        = 25 + extra.length := by
      simp [hsrid, hgtype, hx, hy]
      omega
    have hhead : srid ++ bo :: (gtype ++ xb ++ yb ++ extra)
        = (srid ++ bo :: gtype) ++ (xb ++ (yb ++ extra)) := by
      simp [List.append_assoc]
    have hdrop9 : (srid ++ bo :: (gtype ++ xb ++ yb ++ extra)).drop 9
        = xb ++ (yb ++ extra) := by
      rw [hhead]
      exact List.drop_left' (by simp [hsrid, hgtype])
    have hdrop17 : (srid ++ bo :: (gtype ++ xb ++ yb ++ extra)).drop 17
        = yb ++ extra := by
      have : srid ++ bo :: (gtype ++ xb ++ yb ++ extra)
          = ((srid ++ bo :: gtype) ++ xb) ++ (yb ++ extra) := by
        simp [List.append_assoc]
      rw [this]
      exact List.drop_left' (by simp [hsrid, hgtype, hx])
    rw [convertWkbToPoint, if_neg (by omega), if_neg (by omega), hdrop9, hdrop17]
    rw [List.take_left' hx, List.take_left' hy]
  · intro wkb h
    rw [convertWkbToPoint, if_pos h]
  · intro wkb h1 h2
    rw [convertWkbToPoint, if_neg (by omega), if_pos h2]

/-- Witness for C5: the general layout clause applied to the concrete
25-byte buffer (SRID 0, byte order 1, type 1, X = 12.5, Y = −3.25). -/
theorem convertWkbToPoint_contract_witness :
    convertWkbToPoint
        ([ 0, 0, 0, 0 ] ++ 1 :: ([ 1, 0, 0, 0 ] ++
          [ 0, 0, 0, 0, 0, 0, 41, 64 ] ++ [ 0, 0, 0, 0, 0, 0, 10, 192 ] ++ []))
      = some ("(" ++ pyFloatRepr (unpackDoubleLE [ 0, 0, 0, 0, 0, 0, 41, 64 ]) ++
          ", " ++ pyFloatRepr (unpackDoubleLE [ 0, 0, 0, 0, 0, 0, 10, 192 ]) ++ ")") :=
  convertWkbToPoint_contract.1 [ 0, 0, 0, 0 ] [ 1, 0, 0, 0 ]
    [ 0, 0, 0, 0, 0, 0, 41, 64 ] [ 0, 0, 0, 0, 0, 0, 10, 192 ] [] 1
    (by decide) (by decide) (by decide) (by decide)

/-! ## Association-list (Python dict) lemmas -/

theorem mem_dictInsert {β : Type} (k : String) (v : β) (kv : String × β) :
    ∀ m : List (String × β), kv ∈ dictInsert m k v → kv ∈ m ∨ kv = (k, v) := by
  intro m
  induction m with
  | nil =>
    intro h
    rw [dictInsert] at h
    exact Or.inr (by simpa using h)
  | cons hd tl ih =>
    intro h
    rcases hd with ⟨k', v'⟩
    rw [dictInsert] at h
    split at h
    · rename_i heq
      rcases List.mem_cons.mp h with rfl | hmem
      · exact Or.inr (by rw [heq])
      · exact Or.inl (List.mem_cons_of_mem _ hmem)
    · rcases List.mem_cons.mp h with rfl | hmem
      · exact Or.inl (List.mem_cons_self _ _)
      · rcases ih hmem with h1 | h2
        · exact Or.inl (List.mem_cons_of_mem _ h1)
        · exact Or.inr h2

theorem mem_dictRemove {β : Type} (k : String) (kv : String × β) :
    ∀ m : List (String × β), kv ∈ dictRemove m k → kv ∈ m := by
  intro m
  induction m with
  | nil => intro h; exact absurd h (by simp [dictRemove])
  | cons hd tl ih =>
    intro h
    rcases hd with ⟨k', v'⟩
    rw [dictRemove] at h
    split at h
    · exact List.mem_cons_of_mem _ h
    · rcases List.mem_cons.mp h with rfl | hmem
      · exact List.mem_cons_self _ _
      · exact List.mem_cons_of_mem _ (ih hmem)

theorem dictMem_iff {β : Type} (m : List (String × β)) (k : String) :
    dictMem m k = true ↔ ∃ kv ∈ m, kv.1 = k := by
  unfold dictMem
  rw [List.any_eq_true]
  constructor
  · rintro ⟨kv, hkv, hp⟩
    exact ⟨kv, hkv, by simpa using hp⟩
  · rintro ⟨kv, hkv, hp⟩
    exact ⟨kv, hkv, by simpa using hp⟩

theorem dictMem_dictInsert {β : Type} (k : String) (v : β) (x : String) :
    ∀ m : List (String × β),
      dictMem (dictInsert m k v) x = (dictMem m x || decide (x = k)) := by
  intro m
  induction m with
  | nil =>
    rw [dictInsert]
    by_cases h : x = k
    · subst h; simp [dictMem]
    · simp [dictMem, h, Ne.symm h]
  | cons hd tl ih =>
    rcases hd with ⟨k', v'⟩
    rw [dictInsert]
    split
    · rename_i heq
      subst heq
      by_cases hx : x = k'
      · subst hx; simp [dictMem]
      · simp [dictMem, hx, Ne.symm hx]
    · unfold dictMem at ih ⊢
      simp only [List.any_cons, ih, Bool.or_assoc]

theorem dictMem_dictRemove_ne {β : Type} (k x : String) (hne : x ≠ k) :
    ∀ m : List (String × β),
      dictMem (dictRemove m k) x = dictMem m x := by
  intro m
  induction m with
  | nil => simp [dictRemove]
  | cons hd tl ih =>
    rcases hd with ⟨k', v'⟩
    rw [dictRemove]
    split
    · rename_i heq
      subst heq
      unfold dictMem
      rw [List.any_cons]
      have : (decide (k' = x)) = false := by
        simp
        exact fun hcon => hne hcon.symm
      rw [this]
      simp
    · unfold dictMem
      rw [List.any_cons, List.any_cons]
      unfold dictMem at ih
      rw [ih]

theorem dictGetD_mem {β : Type} (m : List (String × β)) (k : String) (dflt : β)
    (h : dictMem m k = true) :
    ∃ kv ∈ m, kv.1 = k ∧ dictGetD m k dflt = kv.2 := by
  have hsome : (m.find? (fun kv => kv.1 = k)).isSome := by
    apply List.find?_isSome.mpr
    rcases (dictMem_iff m k).mp h with ⟨kv, h1, h2⟩
    exact ⟨kv, h1, by simpa using h2⟩
  rcases Option.isSome_iff_exists.mp hsome with ⟨kv, hfind⟩
  refine ⟨kv, List.mem_of_find?_eq_some hfind, by simpa using List.find?_some hfind, ?_⟩
  unfold dictGetD
  rw [hfind]

/-! ## C8 — sandbox execution phase order -/

/-- Elements of `sortByDependency` come from the input table list, and the
set of table names is preserved. -/
theorem sortByDependency_mem (tables : List TransformedDDL)
    (depOrder : List String) :
    (∀ d ∈ sortByDependency tables depOrder, d ∈ tables)
    ∧ (∀ n, (∃ d ∈ tables, d.object_name = n) ↔
        ∃ d ∈ sortByDependency tables depOrder, d.object_name = n) := by
  by_cases hdep : depOrder = []
  · subst hdep
    rw [sortByDependency]
    simp only [if_pos rfl]
    have hperm := List.mergeSort_perm tables
      (fun a b => getPriority a ≤ getPriority b)
    constructor
    · intro d hd
      exact hperm.mem_iff.mp hd
    · intro n
      constructor
      · rintro ⟨d, hd, hn⟩
        exact ⟨d, hperm.mem_iff.mpr hd, hn⟩
      · rintro ⟨d, hd, hn⟩
        exact ⟨d, hperm.mem_iff.mp hd, hn⟩
  · rw [sortByDependency, if_neg hdep]
    -- the fold invariant
    set step := fun (acc : List TransformedDDL × List (String × TransformedDDL))
        (objId : String) =>
      match splitObjectId objId with
      | some (objType, objName) =>
        if objType = "table" ∧ dictMem acc.2 objName then
          (acc.1 ++ [ dictGetD acc.2 objName default ], dictRemove acc.2 objName)
        else acc
      | none => acc
      with hstep
    have hpres : ∀ (acc : List TransformedDDL × List (String × TransformedDDL))
        (objId : String),
        ((∀ d ∈ acc.1, d ∈ tables) ∧ (∀ kv ∈ acc.2, kv.2 ∈ tables)
          ∧ (∀ kv ∈ acc.2, kv.2.object_name = kv.1)
          ∧ (∀ n, (∃ d ∈ tables, d.object_name = n) ↔
              ((∃ d ∈ acc.1, d.object_name = n) ∨ dictMem acc.2 n = true))) →
        ((∀ d ∈ (step acc objId).1, d ∈ tables)
          ∧ (∀ kv ∈ (step acc objId).2, kv.2 ∈ tables)
          ∧ (∀ kv ∈ (step acc objId).2, kv.2.object_name = kv.1)
          ∧ (∀ n, (∃ d ∈ tables, d.object_name = n) ↔
              ((∃ d ∈ (step acc objId).1, d.object_name = n)
                ∨ dictMem (step acc objId).2 n = true))) := by
      intro acc objId hI
      obtain ⟨hS1, hS2, hJ, hC⟩ := hI
      rw [hstep]
      simp only
      rcases hsplit : splitObjectId objId with _ | ⟨objType, objName⟩
      · simp only [hsplit]
        exact ⟨hS1, hS2, hJ, hC⟩
      · simp only [hsplit]
        by_cases hcond : objType = "table" ∧ dictMem acc.2 objName = true
        · rw [if_pos (by simpa using hcond)]
          rcases dictGetD_mem acc.2 objName default hcond.2 with
            ⟨kv, hkvmem, hkvkey, hkvval⟩
          refine ⟨?_, ?_, ?_, ?_⟩
          · intro d hd
            rcases List.mem_append.mp hd with hd1 | hd2
            · exact hS1 d hd1
            · have hdval : d = dictGetD acc.2 objName default := by simpa using hd2
              rw [hdval, hkvval]
              exact hS2 kv hkvmem
          · intro kv' hkv'
            exact hS2 kv' (mem_dictRemove _ _ _ hkv')
          · intro kv' hkv'
            exact hJ kv' (mem_dictRemove _ _ _ hkv')
          · intro n
            rw [hC n]
            by_cases hn : n = objName
            · subst hn
              constructor
              · intro _
                refine Or.inl ⟨dictGetD acc.2 n default, by simp, ?_⟩
                rw [hkvval, hJ kv hkvmem, hkvkey]
              · intro _
                exact Or.inr hcond.2
            · constructor
              · rintro (hmem | hdict)
                · rcases hmem with ⟨d, hd, hdn⟩
                  exact Or.inl ⟨d, List.mem_append_left _ hd, hdn⟩
                · refine Or.inr ?_
                  rw [dictMem_dictRemove_ne objName n hn]
                  exact hdict
              · rintro (hmem | hdict)
                · rcases hmem with ⟨d, hd, hdn⟩
                  rcases List.mem_append.mp hd with hd1 | hd2
                  · exact Or.inl ⟨d, hd1, hdn⟩
                  · exfalso
                    apply hn
                    have hdval : d = dictGetD acc.2 objName default := by
                      simpa using hd2
                    rw [← hdn, hdval, hkvval, hJ kv hkvmem, hkvkey]
                · refine Or.inr ?_
                  rw [dictMem_dictRemove_ne objName n hn] at hdict
                  exact hdict
        · rw [if_neg (by simpa using hcond)]
          exact ⟨hS1, hS2, hJ, hC⟩
    have hInv : ∀ (l : List String)
        (acc : List TransformedDDL × List (String × TransformedDDL)),
        ((∀ d ∈ acc.1, d ∈ tables) ∧ (∀ kv ∈ acc.2, kv.2 ∈ tables)
          ∧ (∀ kv ∈ acc.2, kv.2.object_name = kv.1)
          ∧ (∀ n, (∃ d ∈ tables, d.object_name = n) ↔
              ((∃ d ∈ acc.1, d.object_name = n) ∨ dictMem acc.2 n = true))) →
        ((∀ d ∈ (l.foldl step acc).1, d ∈ tables)
          ∧ (∀ kv ∈ (l.foldl step acc).2, kv.2 ∈ tables)
          ∧ (∀ kv ∈ (l.foldl step acc).2, kv.2.object_name = kv.1)
          ∧ (∀ n, (∃ d ∈ tables, d.object_name = n) ↔
              ((∃ d ∈ (l.foldl step acc).1, d.object_name = n)
                ∨ dictMem (l.foldl step acc).2 n = true))) := by
      intro l
      induction l with
      | nil => exact fun acc h => h
      | cons o rest ih =>
        intro acc h
        rw [List.foldl_cons]
        exact ih _ (hpres acc o h)
    have hbuild0 : ∀ (l : List TransformedDDL) (m : List (String × TransformedDDL)),
        (∀ kv ∈ m, kv.2 ∈ tables) → (∀ d ∈ l, d ∈ tables) →
        ∀ kv ∈ l.foldl (fun m d => dictInsert m d.object_name d) m, kv.2 ∈ tables := by
      intro l
      induction l with
      | nil => intro m hm _ kv hkv; exact hm kv hkv
      | cons d rest ih =>
        intro m hm hl kv hkv
        refine ih _ ?_ (fun d' hd' => hl d' (List.mem_cons_of_mem _ hd')) kv hkv
        intro kv' hkv'
        rcases mem_dictInsert _ _ _ _ hkv' with h | rfl
        · exact hm kv' h
        · exact hl d (List.mem_cons_self _ _)
    have hbuild1 : ∀ (l : List TransformedDDL) (m : List (String × TransformedDDL)),
        (∀ kv ∈ m, kv.2.object_name = kv.1) →
        ∀ kv ∈ l.foldl (fun m d => dictInsert m d.object_name d) m,
          kv.2.object_name = kv.1 := by
      intro l
      induction l with
      | nil => intro m hm kv hkv; exact hm kv hkv
      | cons d rest ih =>
        intro m hm kv hkv
        refine ih _ ?_ kv hkv
        intro kv' hkv'
        rcases mem_dictInsert _ _ _ _ hkv' with h | rfl
        · exact hm kv' h
        · rfl
    have hbuild2 : ∀ (l : List TransformedDDL) (m : List (String × TransformedDDL)) (n : String),
        (dictMem (l.foldl (fun m d => dictInsert m d.object_name d) m) n = true ↔
          (dictMem m n = true ∨ ∃ d ∈ l, d.object_name = n)) := by
      intro l
      induction l with
      | nil => intro m n; simp
      | cons d rest ih =>
        intro m n
        rw [List.foldl_cons, ih, dictMem_dictInsert, Bool.or_eq_true,
          decide_eq_true_iff]
        constructor
        · rintro ((h | h) | hrest)
          · exact Or.inl h
          · exact Or.inr ⟨d, List.mem_cons_self _ _, h.symm⟩
          · rcases hrest with ⟨d', hd', hn⟩
            exact Or.inr ⟨d', List.mem_cons_of_mem _ hd', hn⟩
        · rintro (h | ⟨d', hd', hn⟩)
          · exact Or.inl (Or.inl h)
          · rcases List.mem_cons.mp hd' with rfl | hmem
            · exact Or.inl (Or.inr hn.symm)
            · exact Or.inr ⟨d', hmem, hn⟩
    have hfinal := hInv depOrder
      ([], tables.foldl (fun m d => dictInsert m d.object_name d) [])
      ⟨by simp, hbuild0 tables [] (by simp) (fun d hd => hd),
       hbuild1 tables [] (by simp),
       by
        intro n
        rw [hbuild2 tables [] n]
        simp [dictMem]⟩
    obtain ⟨hF1, hF2, hF3, hF4⟩ := hfinal
    refine ⟨?_, ?_⟩
    · intro d hd
      rcases List.mem_append.mp hd with hd1 | hd2
      · exact hF1 d hd1
      · rcases List.mem_map.mp hd2 with ⟨kv, hkv, rfl⟩
        exact hF2 kv hkv
    · intro n
      rw [hF4 n]
      constructor
      · rintro (⟨d, hd, hdn⟩ | hdict)
        · exact ⟨d, List.mem_append_left _ hd, hdn⟩
        · rcases (dictMem_iff _ _).mp hdict with ⟨kv, hkv, hk⟩
          exact ⟨kv.2, List.mem_append_right _ (List.mem_map_of_mem _ hkv),
            by rw [hF3 kv hkv, hk]⟩
      · rintro ⟨d, hd, hdn⟩
        rcases List.mem_append.mp hd with hd1 | hd2
        · exact Or.inl ⟨d, hd1, hdn⟩
        · rcases List.mem_map.mp hd2 with ⟨kv, hkv, rfl⟩
          refine Or.inr ((dictMem_iff _ _).mpr ⟨kv, hkv, ?_⟩)
          rw [← hdn, hF3 kv hkv]

/-- A list of execution items with one common phase is internally ordered. -/
theorem pairwise_phase_const (c : Nat) :
    ∀ l : List (String × String), (∀ x ∈ l, phaseOfType x.1 = c) →
      List.Pairwise (fun x y => phaseOfType x.1 ≤ phaseOfType y.1) l := by
  intro l
  induction l with
  | nil => intro _; exact List.Pairwise.nil
  | cons a rest ih =>
    intro h
    refine List.Pairwise.cons ?_ (ih fun x hx => h x (List.mem_cons_of_mem _ hx))
    intro y hy
    rw [h a (List.mem_cons_self _ _), h y (List.mem_cons_of_mem _ hy)]

/-- C8: `SandboxAgent.run` executes strictly phase by phase — tables (in
dependency order) first, then indexes, then deferred FK constraints, then
views, then procedures/functions/triggers — so along the execution sequence
the phase index never decreases, and every artifact of each phase is
executed in its own phase's segment. -/
theorem sandbox_execution_phase_order (ddls : List TransformedDDL)
    (procs : List ConvertedProcedure) (depOrder : List String)
    (hp : ∀ p ∈ procs, phaseOfType p.procedure_type = 4) :
    List.Pairwise (fun x y => phaseOfType x.1 ≤ phaseOfType y.1)
      (sandboxExecutionSequence ddls procs depOrder)
    ∧ (∀ d ∈ ddls, d.object_type = "table" →
        ( "table", d.object_name) ∈ sandboxExecutionSequence ddls procs depOrder)
    ∧ (∀ d ∈ ddls,
        d.object_type = "index" ∨ d.object_type = "constraint"
          ∨ d.object_type = "view" →
        (d.object_type, d.object_name) ∈ sandboxExecutionSequence ddls procs depOrder)
    ∧ (∀ p ∈ procs,
        (p.procedure_type, p.name) ∈ sandboxExecutionSequence ddls procs depOrder) := by
  have hseq : sandboxExecutionSequence ddls procs depOrder
      = (sortByDependency (ddls.filter fun d => d.object_type = "table") depOrder).map
          (fun d => (d.object_type, d.object_name))
        ++ ((ddls.filter fun d => d.object_type = "index").map
              (fun d => (d.object_type, d.object_name))
            ++ ((ddls.filter fun d => d.object_type = "constraint").map
                  (fun d => (d.object_type, d.object_name))
                ++ ((ddls.filter fun d => d.object_type = "view").map
                      (fun d => (d.object_type, d.object_name))
                    ++ procs.map (fun p => (p.procedure_type, p.name))))) := by
    rw [sandboxExecutionSequence]
    simp [List.append_assoc]
  have hfilter_type : ∀ (ty : String) (d : TransformedDDL),
      d ∈ ddls.filter (fun d => d.object_type = ty) → d.object_type = ty := by
    intro ty d hd
    have h := (List.mem_filter.mp hd).2
    simpa using h
  have hT : ∀ x ∈ (sortByDependency (ddls.filter fun d => d.object_type = "table")
        depOrder).map (fun d => (d.object_type, d.object_name)),
      phaseOfType x.1 = 0 := by
    intro x hx
    rcases List.mem_map.mp hx with ⟨d, hd, rfl⟩
    have hd' := (sortByDependency_mem (ddls.filter fun d => d.object_type = "table")
      depOrder).1 d hd
    rw [hfilter_type "table" d hd']
    rfl
  have hOf : ∀ (ty : String), ∀ x ∈ (ddls.filter fun d => d.object_type = ty).map
        (fun d => (d.object_type, d.object_name)), x.1 = ty := by
    intro ty x hx
    rcases List.mem_map.mp hx with ⟨d, hd, rfl⟩
    exact hfilter_type ty d hd
  have hP : ∀ x ∈ procs.map (fun p => (p.procedure_type, p.name)),
      phaseOfType x.1 = 4 := by
    intro x hx
    rcases List.mem_map.mp hx with ⟨p, hpmem, rfl⟩
    exact hp p hpmem
  refine ⟨?_, ?_, ?_, ?_⟩
  · rw [hseq]
    rw [List.pairwise_append]
    refine ⟨pairwise_phase_const 0 _ hT, ?_, ?_⟩
    · rw [List.pairwise_append]
      refine ⟨pairwise_phase_const 1 _
          (fun x hx => by rw [hOf "index" x hx]; rfl), ?_, ?_⟩
      · rw [List.pairwise_append]
        refine ⟨pairwise_phase_const 2 _
            (fun x hx => by rw [hOf "constraint" x hx]; rfl), ?_, ?_⟩
        · rw [List.pairwise_append]
          refine ⟨pairwise_phase_const 3 _
              (fun x hx => by rw [hOf "view" x hx]; rfl),
            pairwise_phase_const 4 _ hP, ?_⟩
          intro a ha b hb
          rw [hOf "view" a ha, hP b hb]
          decide
        · intro a ha b hb
          rw [hOf "constraint" a ha]
          rcases List.mem_append.mp hb with hb1 | hb2
          · rw [hOf "view" b hb1]; decide
          · rw [hP b hb2]; decide
      · intro a ha b hb
        rw [hOf "index" a ha]
        rcases List.mem_append.mp hb with hb1 | hb2
        · rw [hOf "constraint" b hb1]; decide
        · rcases List.mem_append.mp hb2 with hb3 | hb4
          · rw [hOf "view" b hb3]; decide
          · rw [hP b hb4]; decide
    · intro a ha b hb
      rw [hT a ha]
      exact Nat.zero_le _
  · intro d hd hty
    rw [hseq]
    have hmemf : d ∈ ddls.filter (fun d => d.object_type = "table") :=
      List.mem_filter.mpr ⟨hd, by simp [hty]⟩
    have hname := ((sortByDependency_mem
        (ddls.filter fun d => d.object_type = "table") depOrder).2
        d.object_name).mp ⟨d, hmemf, rfl⟩
    rcases hname with ⟨d', hd', hn⟩
    have hty' : d'.object_type = "table" :=
      hfilter_type "table" d'
        ((sortByDependency_mem (ddls.filter fun d => d.object_type = "table")
          depOrder).1 d' hd')
    apply List.mem_append_left
    apply List.mem_map.mpr
    exact ⟨d', hd', by rw [hty', hn]⟩
  · intro d hd hty
    rw [hseq]
    rcases hty with hty | hty | hty
    · apply List.mem_append_right
      apply List.mem_append_left
      exact List.mem_map_of_mem _ (List.mem_filter.mpr ⟨hd, by simp [hty]⟩)
    · apply List.mem_append_right
      apply List.mem_append_right
      apply List.mem_append_left
      exact List.mem_map_of_mem _ (List.mem_filter.mpr ⟨hd, by simp [hty]⟩)
    · apply List.mem_append_right
      apply List.mem_append_right
      apply List.mem_append_right
      apply List.mem_append_left
      exact List.mem_map_of_mem _ (List.mem_filter.mpr ⟨hd, by simp [hty]⟩)
  · intro p hpmem
    rw [hseq]
    apply List.mem_append_right
    apply List.mem_append_right
    apply List.mem_append_right
    apply List.mem_append_right
    exact List.mem_map_of_mem _ hpmem

/-- Witness for C8 on a concrete artifact set: one table, one index batch,
one deferred-FK batch, one view and one procedure. -/
theorem sandbox_execution_phase_order_witness :
    (∀ p ∈ ([ { name := "film_in_stock",
                procedure_type := "procedure",
                target_code := "" } ] : List ConvertedProcedure),
      phaseOfType p.procedure_type = 4) ∧
    List.Pairwise (fun x y => phaseOfType x.1 ≤ phaseOfType y.1)
      (sandboxExecutionSequence
        [ { object_name := "actor", object_type := "table", target_ddl := "" },
          { object_name := "_indexes", object_type := "index", target_ddl := "" },
          { object_name := "_deferred_fks", object_type := "constraint", target_ddl := "" },
          { object_name := "film_list", object_type := "view", target_ddl := "" } ]
        [ { name := "film_in_stock", procedure_type := "procedure", target_code := "" } ]
        [ "table:actor" ]) :=
  ⟨by decide,
   (sandbox_execution_phase_order
      [ { object_name := "actor", object_type := "table", target_ddl := "" },
        { object_name := "_indexes", object_type := "index", target_ddl := "" },
        { object_name := "_deferred_fks", object_type := "constraint", target_ddl := "" },
        { object_name := "film_list", object_type := "view", target_ddl := "" } ]
      [ { name := "film_in_stock", procedure_type := "procedure", target_code := "" } ]
      [ "table:actor" ] (by decide)).1⟩

/-! ## C7 — circular-FK detection -/

theorem mem_setAdd (s : List String) (y x : String) :
    x ∈ setAdd s y ↔ x ∈ s ∨ x = y := by
  unfold setAdd
  split
  · rename_i hy
    constructor
    · exact Or.inl
    · rintro (h | rfl)
      · exact h
      · exact hy
  · simp

theorem mem_pairSetAdd (s : List (String × String)) (y x : String × String) :
    x ∈ pairSetAdd s y ↔ x ∈ s ∨ x = y := by
  unfold pairSetAdd
  split
  · rename_i hy
    constructor
    · exact Or.inl
    · rintro (h | rfl)
      · exact h
      · exact hy
  · simp

theorem nodup_pairSetAdd (s : List (String × String)) (y : String × String)
    (h : s.Nodup) : (pairSetAdd s y).Nodup := by
  unfold pairSetAdd
  split
  · exact h
  · rename_i hy
    simpa [List.nodup_append] using ⟨h, hy⟩

theorem mem_refSetOf (t : TableMeta) (x : String) :
    x ∈ refSetOf t ↔
      ∃ fk ∈ t.foreign_keys, fk.referred_table = x ∧ x ≠ "" ∧ x ≠ t.name := by
  have key : ∀ (fks : List FKMeta) (init : List String),
      x ∈ fks.foldl (fun s fk =>
        if fk.referred_table ≠ "" ∧ fk.referred_table ≠ t.name then
          setAdd s fk.referred_table
        else s) init ↔
      x ∈ init ∨ ∃ fk ∈ fks, fk.referred_table = x ∧ x ≠ "" ∧ x ≠ t.name := by
    intro fks
    induction fks with
    | nil => intro init; simp
    | cons fk rest ih =>
      intro init
      rw [List.foldl_cons]
      rw [ih]
      by_cases hc : fk.referred_table ≠ "" ∧ fk.referred_table ≠ t.name
      · rw [if_pos hc, mem_setAdd]
        constructor
        · rintro ((h | rfl) | h)
          · exact Or.inl h
          · exact Or.inr ⟨fk, List.mem_cons_self _ _, rfl, hc.1, hc.2⟩
          · rcases h with ⟨fk', h1, h2⟩
            exact Or.inr ⟨fk', List.mem_cons_of_mem _ h1, h2⟩
        · rintro (h | ⟨fk', h1, h2⟩)
          · exact Or.inl (Or.inl h)
          · rcases List.mem_cons.mp h1 with rfl | hmem
            · exact Or.inl (Or.inr h2.1.symm)
            · exact Or.inr ⟨fk', hmem, h2⟩
      · rw [if_neg hc]
        constructor
        · rintro (h | h)
          · exact Or.inl h
          · rcases h with ⟨fk', h1, h2⟩
            exact Or.inr ⟨fk', List.mem_cons_of_mem _ h1, h2⟩
        · rintro (h | ⟨fk', h1, h2⟩)
          · exact Or.inl h
          · rcases List.mem_cons.mp h1 with rfl | hmem
            · exact absurd ⟨by rw [h2.1]; exact h2.2.1,
                by rw [h2.1]; exact h2.2.2⟩ hc
            · exact Or.inr ⟨fk', hmem, h2⟩
  rw [refSetOf, key t.foreign_keys []]
  simp

theorem dictMem_append {β : Type} (m₁ m₂ : List (String × β)) (k : String) :
    dictMem (m₁ ++ m₂) k = (dictMem m₁ k || dictMem m₂ k) := by
  unfold dictMem
  exact List.any_append

theorem dictInsert_eq_append {β : Type} (k : String) (v : β) :
    ∀ m : List (String × β), dictMem m k = false →
      dictInsert m k v = m ++ [ (k, v) ] := by
  intro m
  induction m with
  | nil => intro _; rfl
  | cons hd tl ih =>
    intro h
    rcases hd with ⟨k', v'⟩
    unfold dictMem at h
    rw [List.any_cons] at h
    rcases Bool.or_eq_false_iff.mp h with ⟨h1, h2⟩
    rw [dictInsert, if_neg (by simpa using h1), ih h2]
    rfl

theorem fkGraph_eq_map (tables : List TableMeta)
    (hn : (tables.map (fun t => t.name)).Nodup) :
    fkGraph tables = tables.map (fun t => (t.name, refSetOf t)) := by
  have key : ∀ (l : List TableMeta) (acc : List (String × List String)),
      (∀ t ∈ l, dictMem acc t.name = false) →
      (l.map (fun t => t.name)).Nodup →
      l.foldl (fun m t => dictInsert m t.name (refSetOf t)) acc
        = acc ++ l.map (fun t => (t.name, refSetOf t)) := by
    intro l
    induction l with
    | nil => intro acc _ _; simp
    | cons t rest ih =>
      intro acc hfresh hnodup
      rw [List.foldl_cons, dictInsert_eq_append _ _ _
        (hfresh t (List.mem_cons_self _ _))]
      rw [List.map_cons] at hnodup
      have hrest : ∀ t' ∈ rest, dictMem (acc ++ [ (t.name, refSetOf t) ]) t'.name = false := by
        intro t' ht'
        rw [dictMem_append]
        apply Bool.or_eq_false_iff.mpr
        refine ⟨hfresh t' (List.mem_cons_of_mem _ ht'), ?_⟩
        have hne : t'.name ≠ t.name := by
          intro hcon
          exact (List.nodup_cons.mp hnodup).1 (hcon ▸ List.mem_map_of_mem _ ht')
        simp [dictMem, hne, Ne.symm hne]
      rw [ih _ hrest (List.nodup_cons.mp hnodup).2]
      simp
  rw [fkGraph, key tables [] (by simp [dictMem]) hn]
  simp

theorem dictGetD_map_name (b : String) :
    ∀ tables : List TableMeta, (tables.map (fun t => t.name)).Nodup →
      ∀ t ∈ tables, t.name = b →
      dictGetD (tables.map (fun t => (t.name, refSetOf t))) b [] = refSetOf t := by
  intro tables
  induction tables with
  | nil => intro _ t ht; cases ht
  | cons hd rest ih =>
    intro hn t ht hb
    rw [List.map_cons] at hn ⊢
    rcases List.mem_cons.mp ht with rfl | hmem
    · unfold dictGetD
      rw [List.find?_cons_of_pos _ (by simpa using hb)]
    · have hne : hd.name ≠ b := by
        intro hcon
        exact (List.nodup_cons.mp hn).1
          (by rw [hcon, ← hb]; exact List.mem_map_of_mem _ hmem)
      unfold dictGetD
      rw [List.find?_cons_of_neg _ (by simpa using hne)]
      exact ih (List.nodup_cons.mp hn).2 t hmem hb

/-- Membership in the nested pair-collection fold of
`_detect_circular_fks`. -/
theorem mem_circularPairs_fold (G : List (String × List String)) :
    ∀ (items : List (String × List String)) (init : List (String × String))
      (p : String × String),
      p ∈ items.foldl (fun pairs kv =>
        kv.2.foldl (fun pairs b =>
          if dictMem G b ∧ kv.1 ∈ dictGetD G b [] then
            pairSetAdd pairs (sortedPair kv.1 b)
          else pairs) pairs) init ↔
      p ∈ init ∨ ∃ kv ∈ items, ∃ b ∈ kv.2,
        (dictMem G b = true ∧ kv.1 ∈ dictGetD G b []) ∧ p = sortedPair kv.1 b := by
  have inner : ∀ (a : String) (refs : List String)
      (init : List (String × String)) (p : String × String),
      p ∈ refs.foldl (fun pairs b =>
        if dictMem G b ∧ a ∈ dictGetD G b [] then
          pairSetAdd pairs (sortedPair a b)
        else pairs) init ↔
      p ∈ init ∨ ∃ b ∈ refs,
        (dictMem G b = true ∧ a ∈ dictGetD G b []) ∧ p = sortedPair a b := by
    intro a refs
    induction refs with
    | nil => intro init p; simp
    | cons b rest ih =>
      intro init p
      rw [List.foldl_cons, ih]
      by_cases hc : dictMem G b ∧ a ∈ dictGetD G b []
      · rw [if_pos hc, mem_pairSetAdd]
        constructor
        · rintro ((h | rfl) | h)
          · exact Or.inl h
          · exact Or.inr ⟨b, List.mem_cons_self _ _, ⟨hc.1, hc.2⟩, rfl⟩
          · rcases h with ⟨b', h1, h2⟩
            exact Or.inr ⟨b', List.mem_cons_of_mem _ h1, h2⟩
        · rintro (h | ⟨b', h1, h2⟩)
          · exact Or.inl (Or.inl h)
          · rcases List.mem_cons.mp h1 with rfl | hmem
            · exact Or.inl (Or.inr h2.2)
            · exact Or.inr ⟨b', hmem, h2⟩
      · rw [if_neg hc]
        constructor
        · rintro (h | h)
          · exact Or.inl h
          · rcases h with ⟨b', h1, h2⟩
            exact Or.inr ⟨b', List.mem_cons_of_mem _ h1, h2⟩
        · rintro (h | ⟨b', h1, h2⟩)
          · exact Or.inl h
          · rcases List.mem_cons.mp h1 with rfl | hmem
            · exact absurd ⟨h2.1.1, h2.1.2⟩ hc
            · exact Or.inr ⟨b', hmem, h2⟩
  intro items
  induction items with
  | nil => intro init p; simp
  | cons kv rest ih =>
    intro init p
    rw [List.foldl_cons, ih, inner]
    constructor
    · rintro ((h | h) | h)
      · exact Or.inl h
      · rcases h with ⟨b, h1, h2⟩
        exact Or.inr ⟨kv, List.mem_cons_self _ _, b, h1, h2⟩
      · rcases h with ⟨kv', h1, h2⟩
        exact Or.inr ⟨kv', List.mem_cons_of_mem _ h1, h2⟩
    · rintro (h | ⟨kv', h1, h2⟩)
      · exact Or.inl (Or.inl h)
      · rcases List.mem_cons.mp h1 with rfl | hmem
        · rcases h2 with ⟨b, hb1, hb2⟩
          exact Or.inl (Or.inr ⟨b, hb1, hb2⟩)
        · exact Or.inr ⟨kv', hmem, h2⟩

/-- The nested fold never introduces a duplicate pair. -/
theorem nodup_circularPairs_fold (G : List (String × List String)) :
    ∀ (items : List (String × List String)) (init : List (String × String)),
      init.Nodup →
      (items.foldl (fun pairs kv =>
        kv.2.foldl (fun pairs b =>
          if dictMem G b ∧ kv.1 ∈ dictGetD G b [] then
            pairSetAdd pairs (sortedPair kv.1 b)
          else pairs) pairs) init).Nodup := by
  have inner : ∀ (a : String) (refs : List String)
      (init : List (String × String)), init.Nodup →
      (refs.foldl (fun pairs b =>
        if dictMem G b ∧ a ∈ dictGetD G b [] then
          pairSetAdd pairs (sortedPair a b)
        else pairs) init).Nodup := by
    intro a refs
    induction refs with
    | nil => intro init h; exact h
    | cons b rest ih =>
      intro init h
      rw [List.foldl_cons]
      apply ih
      split
      · exact nodup_pairSetAdd _ _ h
      · exact h
  intro items
  induction items with
  | nil => intro init h; exact h
  | cons kv rest ih =>
    intro init h
    rw [List.foldl_cons]
    exact ih _ (inner kv.1 kv.2 init h)

theorem pyCharsLe_total : ∀ a b : List Char,
    pyCharsLe a b = true ∨ pyCharsLe b a = true := by
  intro a
  induction a with
  | nil => intro b; exact Or.inl rfl
  | cons c as ih =>
    intro b
    cases b with
    | nil => exact Or.inr rfl
    | cons d bs =>
      by_cases h1 : c < d
      · exact Or.inl (by rw [pyCharsLe, if_pos h1])
      · by_cases h2 : d < c
        · exact Or.inr (by rw [pyCharsLe, if_pos h2])
        · rcases ih bs with h | h
          · exact Or.inl (by rw [pyCharsLe, if_neg h1, if_neg h2]; exact h)
          · exact Or.inr (by rw [pyCharsLe, if_neg h2, if_neg h1]; exact h)

theorem pyCharsLe_antisymm : ∀ a b : List Char,
    pyCharsLe a b = true → pyCharsLe b a = true → a = b := by
  intro a
  induction a with
  | nil =>
    intro b _ hba
    cases b with
    | nil => rfl
    | cons d bs => exact absurd hba (by rw [pyCharsLe]; simp)
  | cons c as ih =>
    intro b hab hba
    cases b with
    | nil => exact absurd hab (by rw [pyCharsLe]; simp)
    | cons d bs =>
      by_cases h1 : c < d
      · rw [pyCharsLe, if_neg (lt_asymm h1), if_pos h1] at hba
        exact absurd hba Bool.false_ne_true
      · by_cases h2 : d < c
        · rw [pyCharsLe, if_neg h1, if_pos h2] at hab
          exact absurd hab Bool.false_ne_true
        · have hcd : c = d := le_antisymm (not_lt.mp h2) (not_lt.mp h1)
          rw [pyCharsLe, if_neg h1, if_neg h2] at hab
          rw [pyCharsLe, if_neg h2, if_neg h1] at hba
          rw [hcd, ih bs hab hba]

theorem sortedPair_symm (a b : String) : sortedPair a b = sortedPair b a := by
  unfold sortedPair pyStrLe
  by_cases h1 : pyCharsLe a.data b.data = true
  · by_cases h2 : pyCharsLe b.data a.data = true
    · have : a = b := by
        have := pyCharsLe_antisymm a.data b.data h1 h2
        exact String.ext this
      rw [this]
    · rw [if_pos h1, if_neg (by simpa using h2)]
  · rcases pyCharsLe_total a.data b.data with h | h
    · exact absurd h h1
    · rw [if_neg (by simpa using h1), if_pos h]

theorem sortedPair_le (a b : String) :
    pyStrLe (sortedPair a b).1 (sortedPair a b).2 = true := by
  unfold sortedPair
  by_cases h : pyStrLe a b = true
  · rw [if_pos h]; exact h
  · rw [if_neg h]
    rcases pyCharsLe_total a.data b.data with h1 | h1
    · exact absurd h1 (by simpa [pyStrLe] using h)
    · exact h1

theorem sortedPair_cases (a b : String) :
    sortedPair a b = (a, b) ∨ sortedPair a b = (b, a) := by
  unfold sortedPair
  by_cases h : pyStrLe a b = true
  · rw [if_pos h]; exact Or.inl rfl
  · rw [if_neg h]; exact Or.inr rfl

theorem sortedPair_ne (a b : String) (h : a ≠ b) :
    (sortedPair a b).1 ≠ (sortedPair a b).2 := by
  rcases sortedPair_cases a b with hc | hc <;> rw [hc]
  · exact h
  · exact Ne.symm h

/-- Characterization of the reported pairs as unordered mutual-reference
pairs (the core of C7). -/
theorem mem_circularPairs_iff (tables : List TableMeta)
    (hn : (tables.map (fun t => t.name)).Nodup)
    (hne : ∀ t ∈ tables, t.name ≠ "") (p : String × String) :
    p ∈ circularPairs tables ↔
      ∃ x y : String, (x ≠ y ∧ FkRefs tables x y ∧ FkRefs tables y x)
        ∧ p = sortedPair x y := by
  have hG := fkGraph_eq_map tables hn
  rw [circularPairs, mem_circularPairs_fold]
  simp only [List.not_mem_nil, false_or]
  constructor
  · rintro ⟨kv, hkv, b, hb, ⟨hmem, hget⟩, hp⟩
    rw [hG] at hkv
    rcases List.mem_map.mp hkv with ⟨t, ht, rfl⟩
    rcases (mem_refSetOf t b).mp hb with ⟨fk, hfk, hfkb, hbne, hbt⟩
    rw [hG] at hmem
    rcases (dictMem_iff _ _).mp hmem with ⟨kv', hkv', hkey⟩
    rcases List.mem_map.mp hkv' with ⟨t', ht', rfl⟩
    have hget' : dictGetD (tables.map (fun t => (t.name, refSetOf t))) b []
        = refSetOf t' := dictGetD_map_name b tables hn t' ht' hkey
    rw [hG, hget'] at hget
    rcases (mem_refSetOf t' t.name).mp hget with ⟨fk', hfk', hfka, hane, hat'⟩
    refine ⟨t.name, b, ⟨Ne.symm hbt, ?_, ?_⟩, hp⟩
    · exact ⟨t, ht, rfl, fk, hfk, hfkb⟩
    · exact ⟨t', ht', hkey, fk', hfk', hfka⟩
  · rintro ⟨x, y, ⟨hxy, ⟨ta, hta, htax, fka, hfka, hfkay⟩,
      ⟨tb, htb, htby, fkb, hfkb, hfkbx⟩⟩, hp⟩
    refine ⟨(ta.name, refSetOf ta), ?_, y, ?_, ⟨?_, ?_⟩, ?_⟩
    · rw [hG]
      exact List.mem_map_of_mem _ hta
    · apply (mem_refSetOf ta y).mpr
      refine ⟨fka, hfka, hfkay, ?_, ?_⟩
      · rw [← htby]
        exact hne tb htb
      · rw [htax]
        exact Ne.symm hxy
    · rw [hG]
      apply (dictMem_iff _ _).mpr
      exact ⟨(tb.name, refSetOf tb), List.mem_map_of_mem _ htb, htby⟩
    · rw [hG, dictGetD_map_name y tables hn tb htb htby]
      apply (mem_refSetOf tb ta.name).mpr
      refine ⟨fkb, hfkb, by rw [hfkbx, htax], ?_, ?_⟩
      · exact hne ta hta
      · rw [htax, htby]
        exact hxy
    · rw [hp, htax]

/-- C7: `_detect_circular_fks` reports exactly the mutually-referencing
table pairs (self-references excluded), each stored once under the
canonical sorted ordering, and the `is_circular_fk` lookup is symmetric. -/
theorem circular_fk_detection_correct (tables : List TableMeta)
    (hn : (tables.map (fun t => t.name)).Nodup)
    (hne : ∀ t ∈ tables, t.name ≠ "") :
    (∀ a b : String, sortedPair a b ∈ circularPairs tables ↔
        (a ≠ b ∧ FkRefs tables a b ∧ FkRefs tables b a))
    ∧ (circularPairs tables).Nodup
    ∧ (∀ p ∈ circularPairs tables, pyStrLe p.1 p.2 = true ∧ p.1 ≠ p.2)
    ∧ (∀ a b : String, isCircularFK tables a b = isCircularFK tables b a) := by
  refine ⟨?_, ?_, ?_, ?_⟩
  · intro a b
    rw [mem_circularPairs_iff tables hn hne]
    constructor
    · rintro ⟨x, y, ⟨hxy, hrxy, hryx⟩, hp⟩
      have hcases : (a = x ∧ b = y) ∨ (a = y ∧ b = x) := by
        rcases sortedPair_cases a b with h1 | h1 <;>
            rcases sortedPair_cases x y with h2 | h2 <;>
            rw [h1, h2, Prod.mk.injEq] at hp
        · exact Or.inl hp
        · exact Or.inr hp
        · exact Or.inr ⟨hp.2, hp.1⟩
        · exact Or.inl ⟨hp.2, hp.1⟩
      rcases hcases with ⟨rfl, rfl⟩ | ⟨rfl, rfl⟩
      · exact ⟨hxy, hrxy, hryx⟩
      · exact ⟨Ne.symm hxy, hryx, hrxy⟩
    · intro h
      exact ⟨a, b, h, rfl⟩
  · rw [circularPairs]
    exact nodup_circularPairs_fold _ _ _ List.nodup_nil
  · intro p hp
    rcases (mem_circularPairs_iff tables hn hne p).mp hp with ⟨x, y, ⟨hxy, _⟩, rfl⟩
    exact ⟨sortedPair_le x y, sortedPair_ne x y hxy⟩
  · intro a b
    unfold isCircularFK
    rw [sortedPair_symm]

/-- Witness for C7 at a concrete two-table schema with a mutual FK pair. -/
theorem circular_fk_detection_correct_witness :
    ((([ { name := "staff",
           foreign_keys := [ { name := "fk_staff_store",
                               columns := [ "store_id" ],
                               referred_table := "store",
                               referred_columns := [ "store_id" ] } ] },
         { name := "store",
           foreign_keys := [ { name := "fk_store_staff",
                               columns := [ "manager_staff_id" ],
                               referred_table := "staff",
                               referred_columns := [ "staff_id" ] } ] } ]
        : List TableMeta).map (fun t => t.name)).Nodup) ∧
    (∀ a b : String,
      isCircularFK
        [ { name := "staff",
            foreign_keys := [ { name := "fk_staff_store",
                                columns := [ "store_id" ],
                                referred_table := "store",
                                referred_columns := [ "store_id" ] } ] },
          { name := "store",
            foreign_keys := [ { name := "fk_store_staff",
                                columns := [ "manager_staff_id" ],
                                referred_table := "staff",
                                referred_columns := [ "staff_id" ] } ] } ] a b
      = isCircularFK
        [ { name := "staff",
            foreign_keys := [ { name := "fk_staff_store",
                                columns := [ "store_id" ],
                                referred_table := "store",
                                referred_columns := [ "store_id" ] } ] },
          { name := "store",
            foreign_keys := [ { name := "fk_store_staff",
                                columns := [ "manager_staff_id" ],
                                referred_table := "staff",
                                referred_columns := [ "staff_id" ] } ] } ] b a) :=
  ⟨by decide,
   (circular_fk_detection_correct _ (by decide) (by decide)).2.2.2⟩

/-! ## C1 — Kahn topological sort with cycle tolerance -/

theorem sum_nonneg_all_zero :
    ∀ l : List Int, (∀ x ∈ l, 0 ≤ x) → l.sum = 0 → ∀ x ∈ l, x = 0 := by
  intro l
  induction l with
  | nil => intro _ _ x hx; cases hx
  | cons a rest ih =>
    intro hpos hsum x hx
    have ha : 0 ≤ a := hpos a (List.mem_cons_self _ _)
    have hrest : 0 ≤ rest.sum :=
      List.sum_nonneg (fun y hy => hpos y (List.mem_cons_of_mem _ hy))
    rw [List.sum_cons] at hsum
    rcases List.mem_cons.mp hx with rfl | hmem
    · omega
    · exact ih (fun y hy => hpos y (List.mem_cons_of_mem _ hy)) (by omega) x hmem

theorem map_sum_zero_of_not_mem (x : String) (c : Int) :
    ∀ l : List String, x ∉ l →
      (l.map (fun m => if x = m then c else 0)).sum = 0 := by
  intro l
  induction l with
  | nil => intro _; rfl
  | cons a rest ih =>
    intro hx
    rw [List.map_cons, List.sum_cons,
      if_neg (by intro hcon; exact hx (by rw [hcon]; exact List.mem_cons_self _ _)),
      ih (fun hcon => hx (List.mem_cons_of_mem _ hcon))]
    rfl

theorem map_sum_point (x : String) (c : Int) :
    ∀ l : List String, l.Nodup → x ∈ l →
      (l.map (fun m => if x = m then c else 0)).sum = c := by
  intro l
  induction l with
  | nil => intro _ hx; cases hx
  | cons a rest ih =>
    intro hnd hx
    rw [List.map_cons, List.sum_cons]
    rcases List.mem_cons.mp hx with rfl | hmem
    · rw [if_pos rfl,
        map_sum_zero_of_not_mem x c rest (List.nodup_cons.mp hnd).1]
      omega
    · rw [if_neg (by
          intro hcon
          rw [hcon] at hmem
          exact (List.nodup_cons.mp hnd).1 hmem),
        ih (List.nodup_cons.mp hnd).2 hmem]
      omega

theorem map_sum_add (f g : String → Int) :
    ∀ l : List String,
      (l.map (fun m => f m + g m)).sum = (l.map f).sum + (l.map g).sum := by
  intro l
  induction l with
  | nil => rfl
  | cons a rest ih =>
    rw [List.map_cons, List.map_cons, List.map_cons, List.sum_cons,
      List.sum_cons, List.sum_cons, ih]
    omega

/-- Splitting the total graph count over a dequeued prefix and the rest. -/
theorem sum_split_filter (f : String → Int) (keys result : List String)
    (hk : keys.Nodup) (hres : ∀ k ∈ result, k ∈ keys)
    (hrnd : result.Nodup) :
    (keys.map f).sum
      = (result.map f).sum
        + ((keys.filter (fun m => !(result.contains m))).map f).sum := by
  have hsplit : List.Perm
      (keys.filter (fun m => result.contains m)
        ++ keys.filter (fun m => !(result.contains m))) keys :=
    List.filter_append_perm _ keys
  have hperm : List.Perm (keys.filter (fun m => result.contains m)) result := by
    apply (List.perm_ext_iff_of_nodup
      ((List.filter_sublist keys).nodup hk) hrnd).mpr
    intro a
    rw [List.mem_filter]
    constructor
    · rintro ⟨_, hc⟩
      simpa using hc
    · intro ha
      exact ⟨hres a ha, by simpa using ha⟩
  calc (keys.map f).sum
      = ((keys.filter (fun m => result.contains m)
          ++ keys.filter (fun m => !(result.contains m))).map f).sum :=
        ((hsplit.map f).sum_eq).symm
    _ = ((keys.filter (fun m => result.contains m)).map f).sum
        + ((keys.filter (fun m => !(result.contains m))).map f).sum := by
        rw [List.map_append, List.sum_append]
    _ = (result.map f).sum
        + ((keys.filter (fun m => !(result.contains m))).map f).sum := by
        rw [(hperm.map f).sum_eq]

/-- The decremented in-degree counter never becomes negative. -/
theorem degAt_nonneg (keys : List String) (graph : String → List String)
    (degInit : String → Int) (hk : keys.Nodup)
    (hdeg : ∀ k ∈ keys, degInit k
      = (keys.map (fun m => (((graph m).count k : Nat) : Int))).sum)
    (result : List String) (hres : ∀ k ∈ result, k ∈ keys)
    (hrnd : result.Nodup) :
    ∀ k ∈ keys, 0 ≤ degAt graph degInit result k := by
  intro k hkmem
  rw [degAt, hdeg k hkmem,
    sum_split_filter (fun m => (((graph m).count k : Nat) : Int)) keys result hk hres hrnd]
  have hpos : 0 ≤ ((keys.filter (fun m => !(result.contains m))).map
      (fun m => (((graph m).count k : Nat) : Int))).sum := by
    apply List.sum_nonneg
    intro x hx
    rcases List.mem_map.mp hx with ⟨m, _, rfl⟩
    exact Int.ofNat_nonneg _
  omega

/-- A node whose counter reached zero has all its edge targets dequeued. -/
theorem degAt_zero_targets (keys : List String) (graph : String → List String)
    (degInit : String → Int) (hk : keys.Nodup)
    (hdeg : ∀ k ∈ keys, degInit k
      = (keys.map (fun m => (((graph m).count k : Nat) : Int))).sum)
    (result : List String) (hres : ∀ k ∈ result, k ∈ keys)
    (hrnd : result.Nodup) (k : String) (hkmem : k ∈ keys)
    (hzero : degAt graph degInit result k = 0) :
    ∀ m ∈ keys, k ∈ graph m → m ∈ result := by
  intro m hm hkg
  by_contra hnot
  rw [degAt, hdeg k hkmem,
    sum_split_filter (fun m => (((graph m).count k : Nat) : Int)) keys result hk hres hrnd]
    at hzero
  have hall := sum_nonneg_all_zero
    ((keys.filter (fun m => !(result.contains m))).map
      (fun m => (((graph m).count k : Nat) : Int)))
    (by
      intro x hx
      rcases List.mem_map.mp hx with ⟨m', _, rfl⟩
      exact Int.ofNat_nonneg _)
    (by omega)
  have hmf : m ∈ keys.filter (fun m => !(result.contains m)) :=
    List.mem_filter.mpr ⟨hm, by simpa using hnot⟩
  have hzero' : (((graph m).count k : Nat) : Int) = 0 :=
    hall _ (List.mem_map_of_mem _ hmf)
  have : (graph m).count k = 0 := by exact_mod_cast hzero'
  exact (List.count_eq_zero.mp this) hkg

theorem degAt_append (graph : String → List String) (degInit : String → Int)
    (result : List String) (n k : String) :
    degAt graph degInit (result ++ [ n ]) k
      = degAt graph degInit result k - (((graph n).count k : Nat) : Int) := by
  rw [degAt, degAt, List.map_append, List.sum_append]
  simp
  omega

/-- Members of the adjacency lists are node ids. -/
theorem buildAdjacency_subset (keys : List String)
    (edges : List DependencyEdge) (m k : String)
    (h : k ∈ buildAdjacency keys edges m) : k ∈ keys := by
  rcases List.mem_map.mp h with ⟨e, he, rfl⟩
  have hq := (List.mem_filter.mp he).2
  have : keys.contains e.from_id := by
    rcases Bool.and_eq_true_iff.mp hq with ⟨h1, _⟩
    exact (Bool.and_eq_true_iff.mp h1).2
  simpa using this

theorem buildAdjacency_cons (keys : List String) (e : DependencyEdge)
    (rest : List DependencyEdge) (m : String) :
    buildAdjacency keys (e :: rest) m
      = (if e.to_id = m ∧ keys.contains e.from_id ∧ keys.contains e.to_id
          then [ e.from_id ] else [])
        ++ buildAdjacency keys rest m := by
  rw [buildAdjacency, buildAdjacency, List.filter_cons]
  by_cases hc : e.to_id = m ∧ keys.contains e.from_id ∧ keys.contains e.to_id
  · have hfrom : e.from_id ∈ keys := by simpa using hc.2.1
    have hto : e.to_id ∈ keys := by simpa using hc.2.2
    have htom : m ∈ keys := by rw [← hc.1]; exact hto
    rw [if_pos (by simp [hc.1, hfrom, htom]), if_pos hc, List.map_cons]
    rfl
  · rw [if_neg (by
      intro hcon
      rcases Bool.and_eq_true_iff.mp hcon with ⟨h1, h3⟩
      rcases Bool.and_eq_true_iff.mp h1 with ⟨h0, h2⟩
      exact hc ⟨by simpa using h0, h2, h3⟩), if_neg hc]
    rfl

/-- The initial in-degree counter agrees with the column sums of the
adjacency dict: `in_degree[k]` equals the number of occurrences of `k`
across all adjacency lists. -/
theorem initialInDegree_eq_sum (keys : List String) (hk : keys.Nodup)
    (edges : List DependencyEdge) (k : String) :
    initialInDegree keys edges k
      = (keys.map (fun m =>
          (((buildAdjacency keys edges m).count k : Nat) : Int))).sum := by
  induction edges with
  | nil =>
    rw [initialInDegree]
    simp [buildAdjacency]
  | cons e rest ih =>
    rw [initialInDegree, List.filter_cons]
    have hsum : (keys.map (fun m =>
        (((buildAdjacency keys (e :: rest) m).count k : Nat) : Int))).sum
        = (keys.map (fun m =>
            ((if e.to_id = m ∧ keys.contains e.from_id ∧ keys.contains e.to_id
                ∧ e.from_id = k then (1 : Int) else 0)
              + ((buildAdjacency keys rest m).count k : Nat)))).sum := by
      congr 1
      apply List.map_congr_left
      intro m _
      rw [buildAdjacency_cons]
      by_cases hc : e.to_id = m ∧ keys.contains e.from_id ∧ keys.contains e.to_id
      · rw [if_pos hc]
        by_cases hf : e.from_id = k
        · rw [if_pos ⟨hc.1, hc.2.1, hc.2.2, hf⟩]
          rw [List.singleton_append, List.count_cons]
          simp [hf]
          omega
        · rw [if_neg (show ¬(e.to_id = m ∧ keys.contains e.from_id
              ∧ keys.contains e.to_id ∧ e.from_id = k) from
              fun hcon => hf hcon.2.2.2)]
          rw [List.singleton_append, List.count_cons]
          simp [hf]
      · rw [if_neg (show ¬(e.to_id = m ∧ keys.contains e.from_id
            ∧ keys.contains e.to_id ∧ e.from_id = k) from
            fun hcon => hc ⟨hcon.1, hcon.2.1, hcon.2.2.1⟩), if_neg hc]
        simp
    rw [hsum, map_sum_add, ← ih]
    by_cases hp : e.from_id = k ∧ keys.contains e.from_id ∧ keys.contains e.to_id
    · have hto : e.to_id ∈ keys := by simpa using hp.2.2
      have hkk : k ∈ keys := by
        rw [← hp.1]
        simpa using hp.2.1
      rw [if_pos (by simp [hp.1, hkk, hto])]
      have hpoint : (keys.map (fun m =>
          if e.to_id = m ∧ keys.contains e.from_id ∧ keys.contains e.to_id
            ∧ e.from_id = k then (1 : Int) else 0)).sum = 1 := by
        have : (keys.map (fun m =>
            if e.to_id = m ∧ keys.contains e.from_id ∧ keys.contains e.to_id
              ∧ e.from_id = k then (1 : Int) else 0))
            = (keys.map (fun m => if e.to_id = m then (1 : Int) else 0)) := by
          apply List.map_congr_left
          intro m _
          by_cases hm : e.to_id = m
          · rw [if_pos ⟨hm, hp.2.1, hp.2.2, hp.1⟩, if_pos hm]
          · rw [if_neg (fun hcon => hm hcon.1), if_neg hm]
        rw [this, map_sum_point e.to_id 1 keys hk hto]
      rw [hpoint]
      simp [initialInDegree]
      omega
    · rw [if_neg (by
        intro hcon
        rcases Bool.and_eq_true_iff.mp hcon with ⟨h1, h3⟩
        rcases Bool.and_eq_true_iff.mp h1 with ⟨h0, h2⟩
        exact hp ⟨by simpa using h0, h2, h3⟩)]
      have hzero : (keys.map (fun m =>
          if e.to_id = m ∧ keys.contains e.from_id ∧ keys.contains e.to_id
            ∧ e.from_id = k then (1 : Int) else 0)).sum = 0 := by
        have : (keys.map (fun m =>
            if e.to_id = m ∧ keys.contains e.from_id ∧ keys.contains e.to_id
              ∧ e.from_id = k then (1 : Int) else 0))
            = (keys.map (fun _ => (0 : Int))) := by
          apply List.map_congr_left
          intro m _
          rw [if_neg (fun hcon => hp ⟨hcon.2.2.2, hcon.2.1, hcon.2.2.1⟩)]
        rw [this]
        simp
      rw [hzero, initialInDegree]
      omega

/-- The inner neighbor loop applies all pending decrements while keeping
the pending invariant. -/
theorem processNeighbors_pres (keys : List String)
    (graph : String → List String) (degInit : String → Int)
    (hk : keys.Nodup)
    (hdeg : ∀ k ∈ keys, degInit k
      = (keys.map (fun m => (((graph m).count k : Nat) : Int))).sum)
    (result' : List String) (hres : ∀ k ∈ result', k ∈ keys)
    (hrnd : result'.Nodup) :
    ∀ (ds : List String) (deg : String → Int) (queue : List String),
      PendState keys graph degInit result' ds deg queue →
      PendState keys graph degInit result' []
        (processNeighbors ds deg queue).1 (processNeighbors ds deg queue).2 := by
  intro ds
  induction ds with
  | nil =>
    intro deg queue h
    exact h
  | cons d ds ih =>
    intro deg queue h
    obtain ⟨hA, hC, hD, hB, hE, hF⟩ := h
    have hdk : d ∈ keys := hD d (List.mem_cons_self _ _)
    have hfresh : d ∉ result' ++ queue := by
      intro hmem
      have h0 : deg d = 0 := hE d hmem
      have hAd := hA d hdk
      have hnn := degAt_nonneg keys graph degInit hk hdeg result' hres hrnd d hdk
      have hcnt : (d :: ds).count d = ds.count d + 1 := List.count_cons_self d ds
      rw [hcnt] at hAd
      push_cast at hAd
      omega
    have hstep : processNeighbors (d :: ds) deg queue
        = processNeighbors ds
            (fun k => if k = d then deg k - 1 else deg k)
            (if (if d = d then deg d - 1 else deg d) = 0
              then queue ++ [ d ] else queue) := rfl
    rw [hstep]
    have hcond : (if d = d then deg d - 1 else deg d) = deg d - 1 := if_pos rfl
    rw [hcond]
    apply ih
    have hA' : ∀ k ∈ keys, (if k = d then deg k - 1 else deg k)
        = degAt graph degInit result' k + ((ds.count k : Nat) : Int) := by
      intro k hkk
      by_cases hkd : k = d
      · subst hkd
        rw [if_pos rfl, hA k hkk, List.count_cons_self]
        push_cast
        omega
      · rw [if_neg hkd, hA k hkk, List.count_cons]
        have : (d == k) = false := by
          simp
          exact fun hcon => hkd hcon.symm
        rw [this]
        simp
    have hD' : ∀ k ∈ ds, k ∈ keys := fun k hkmem => hD k (List.mem_cons_of_mem _ hkmem)
    by_cases hq : deg d - 1 = 0
    · rw [if_pos hq]
      refine ⟨hA', ?_, hD', ?_, ?_, ?_⟩
      · intro k hkmem
        rcases List.mem_append.mp hkmem with hk1 | hk2
        · exact hC k hk1
        · rw [List.mem_singleton.mp hk2]
          exact hdk
      · rw [← List.append_assoc, List.nodup_append]
        refine ⟨hB, List.nodup_singleton d, ?_⟩
        intro x hx hy
        rw [List.mem_singleton.mp hy] at hx
        exact hfresh hx
      · intro k hkmem
        rw [← List.append_assoc] at hkmem
        rcases List.mem_append.mp hkmem with hk1 | hk2
        · have hkd : k ≠ d := by
            intro hcon
            rw [hcon] at hk1
            exact hfresh hk1
          show (if k = d then deg k - 1 else deg k) = 0
          rw [if_neg hkd]
          exact hE k hk1
        · rw [List.mem_singleton.mp hk2]
          show (if d = d then deg d - 1 else deg d) = 0
          rw [if_pos rfl]
          exact hq
      · intro k hkk hzero
        by_cases hkd : k = d
        · subst hkd
          rw [← List.append_assoc]
          exact List.mem_append_right _ (List.mem_singleton.mpr rfl)
        · have hzero' : (if k = d then deg k - 1 else deg k) = 0 := hzero
          rw [if_neg hkd] at hzero'
          rw [← List.append_assoc]
          exact List.mem_append_left _ (hF k hkk hzero')
    · rw [if_neg hq]
      refine ⟨hA', hC, hD', hB, ?_, ?_⟩
      · intro k hkmem
        have hkd : k ≠ d := by
          intro hcon
          rw [hcon] at hkmem
          exact hfresh hkmem
        show (if k = d then deg k - 1 else deg k) = 0
        rw [if_neg hkd]
        exact hE k hkmem
      · intro k hkk hzero
        have hzero' : (if k = d then deg k - 1 else deg k) = 0 := hzero
        by_cases hkd : k = d
        · subst hkd
          rw [if_pos rfl] at hzero'
          exact absurd hzero' hq
        · rw [if_neg hkd] at hzero'
          exact hF k hkk hzero'

/-- One iteration of the `while queue:` loop preserves the Kahn
invariant. -/
theorem kahn_step (keys : List String) (graph : String → List String)
    (degInit : String → Int) (hk : keys.Nodup)
    (hgsub : ∀ m k, k ∈ graph m → k ∈ keys)
    (hdeg : ∀ k ∈ keys, degInit k
      = (keys.map (fun m => (((graph m).count k : Nat) : Int))).sum)
    (n : String) (rest : List String) (deg : String → Int)
    (result : List String)
    (hS : KahnState keys graph degInit (n :: rest) deg result) :
    KahnState keys graph degInit
      (processNeighbors (graph n) deg rest).2
      (processNeighbors (graph n) deg rest).1
      (result ++ [ n ]) := by
  obtain ⟨h1, h2, h3, h4, h5, h6, h7⟩ := hS
  have hnk : n ∈ keys := h2 n (List.mem_cons_self _ _)
  have hdegn : deg n = 0 :=
    h5 n (List.mem_append_right _ (List.mem_cons_self _ _))
  have hregroup : result ++ n :: rest = (result ++ [ n ]) ++ rest := by simp
  have hnodup' : ((result ++ [ n ]) ++ rest).Nodup := by
    rw [← hregroup]
    exact h3
  have hres' : ∀ k ∈ result ++ [ n ], k ∈ keys := by
    intro k hkmem
    rcases List.mem_append.mp hkmem with hk1 | hk2
    · exact h1 k hk1
    · rw [List.mem_singleton.mp hk2]
      exact hnk
  have hrnd' : (result ++ [ n ]).Nodup := hnodup'.of_append_left
  have hpend : PendState keys graph degInit (result ++ [ n ]) (graph n) deg rest := by
    refine ⟨?_, ?_, ?_, hnodup', ?_, ?_⟩
    · intro k hkk
      rw [degAt_append, h4 k hkk]
      omega
    · exact fun k hkmem => h2 k (List.mem_cons_of_mem _ hkmem)
    · exact fun k hkmem => hgsub n k hkmem
    · intro k hkmem
      rw [← hregroup] at hkmem
      exact h5 k hkmem
    · intro k hkk hzero
      rw [← hregroup]
      exact h6 k hkk hzero
  have hpost := processNeighbors_pres keys graph degInit hk hdeg
    (result ++ [ n ]) hres' hrnd' (graph n) deg rest hpend
  obtain ⟨pA, pC, _, pB, pE, pF⟩ := hpost
  refine ⟨hres', pC, pB, ?_, pE, pF, ?_⟩
  · intro k hkk
    rw [pA k hkk]
    simp
  · intro i hi m hm hg
    have hlen : i < result.length + 1 := by
      simpa using hi
    by_cases hcase : i < result.length
    · have hget : (result ++ [ n ]).get ⟨i, hi⟩ = result.get ⟨i, hcase⟩ := by
        simp [List.getElem_append_left hcase]
      rw [List.take_append_of_le_length (le_of_lt hcase)]
      exact h7 i hcase m hm (hget ▸ hg)
    · have hieq : i = result.length := by omega
      subst hieq
      have hget : (result ++ [ n ]).get ⟨result.length, hi⟩ = n := by
        simp
      rw [hget] at hg
      rw [List.take_append_of_le_length (le_refl _), List.take_length]
      have hzero : degAt graph degInit result n = 0 := by
        rw [← h4 n hnk]
        exact hdegn
      exact degAt_zero_targets keys graph degInit hk hdeg result h1
        (h3.of_append_left) n hnk hzero m hm hg

/-- The Kahn loop yields a duplicate-free list of node ids in which every
node appears after all its edge targets. -/
theorem kahnLoop_spec (keys : List String) (graph : String → List String)
    (degInit : String → Int) (hk : keys.Nodup)
    (hgsub : ∀ m k, k ∈ graph m → k ∈ keys)
    (hdeg : ∀ k ∈ keys, degInit k
      = (keys.map (fun m => (((graph m).count k : Nat) : Int))).sum) :
    ∀ (fuel : Nat) (queue : List String) (deg : String → Int)
      (result : List String),
      KahnState keys graph degInit queue deg result →
      (∀ k ∈ kahnLoop graph fuel queue deg result, k ∈ keys)
      ∧ (kahnLoop graph fuel queue deg result).Nodup
      ∧ (∀ (i : Nat) (h : i < (kahnLoop graph fuel queue deg result).length),
          ∀ m ∈ keys, (kahnLoop graph fuel queue deg result).get ⟨i, h⟩ ∈ graph m →
            m ∈ (kahnLoop graph fuel queue deg result).take i) := by
  intro fuel
  induction fuel with
  | zero =>
    intro queue deg result hS
    obtain ⟨h1, _, h3, _, _, _, h7⟩ := hS
    exact ⟨h1, h3.of_append_left, h7⟩
  | succ f ih =>
    intro queue deg result hS
    cases queue with
    | nil =>
      obtain ⟨h1, _, h3, _, _, _, h7⟩ := hS
      exact ⟨h1, h3.of_append_left, h7⟩
    | cons n rest =>
      exact ih _ _ _ (kahn_step keys graph degInit hk hgsub hdeg n rest deg result hS)

/-- The fuel `keys.length` used by `_topological_sort`'s embedding is
sufficient: adding more fuel does not change the loop's output. -/
theorem kahnLoop_fuel_stable (keys : List String)
    (graph : String → List String) (degInit : String → Int) (hk : keys.Nodup)
    (hgsub : ∀ m k, k ∈ graph m → k ∈ keys)
    (hdeg : ∀ k ∈ keys, degInit k
      = (keys.map (fun m => (((graph m).count k : Nat) : Int))).sum) :
    ∀ (fuel : Nat) (queue : List String) (deg : String → Int)
      (result : List String),
      KahnState keys graph degInit queue deg result →
      keys.length ≤ fuel + result.length →
      kahnLoop graph (fuel + 1) queue deg result
        = kahnLoop graph fuel queue deg result := by
  intro fuel
  induction fuel with
  | zero =>
    intro queue deg result hS hlen
    cases queue with
    | nil => rfl
    | cons n rest =>
      exfalso
      obtain ⟨h1, h2, h3, _, _, _, _⟩ := hS
      have hsub : result ++ n :: rest ⊆ keys := by
        intro x hx
        rcases List.mem_append.mp hx with hx1 | hx2
        · exact h1 x hx1
        · exact h2 x hx2
      have := (List.subperm_of_subset h3 hsub).length_le
      rw [List.length_append, List.length_cons] at this
      omega
  | succ f ih =>
    intro queue deg result hS hlen
    cases queue with
    | nil => rfl
    | cons n rest =>
      have hstep := kahn_step keys graph degInit hk hgsub hdeg n rest deg result hS
      have hlen' : keys.length ≤ f + (result ++ [ n ]).length := by
        rw [List.length_append]
        simp
        omega
      exact ih _ _ _ hstep hlen'

/-- On a duplicate-free list the Python dict-key extraction is the
identity. -/
theorem pyDictKeys_eq_self (l : List String) (hl : l.Nodup) :
    pyDictKeys l = l := by
  have key : ∀ (l' : List String) (acc : List String),
      (∀ x ∈ l', x ∉ acc) → l'.Nodup →
      l'.foldl (fun acc k => if k ∈ acc then acc else acc ++ [ k ]) acc
        = acc ++ l' := by
    intro l'
    induction l' with
    | nil => intro acc _ _; simp
    | cons a rest ih =>
      intro acc hfresh hnd
      rw [List.foldl_cons, if_neg (hfresh a (List.mem_cons_self _ _))]
      rw [ih (acc ++ [ a ])
        (by
          intro x hx hcon
          rcases List.mem_append.mp hcon with hc1 | hc2
          · exact hfresh x (List.mem_cons_of_mem _ hx) hc1
          · rw [List.mem_singleton.mp hc2] at hx
            exact (List.nodup_cons.mp hnd).1 hx)
        (List.nodup_cons.mp hnd).2]
      simp
  rw [pyDictKeys, key l [] (by simp) hl]
  simp

/-- C1 (amended).  `_topological_sort` never raises and returns every node
id exactly once: when the node ids are distinct the output is a
permutation of them, it is duplicate-free, it is the Kahn-phase output
followed by the leftover ids in their original relative order, and for
every edge whose source node was emitted by the Kahn phase the edge's
target precedes the source in the output.  The original claim's stronger
guarantee — that the target precedes the source for *every* non-circular
foreign-key edge — is false: a source node starved behind an unrelated
cycle is appended in input order, ignoring its edges (see
`topologicalSort_noncircular_edge_counterexample`). -/
theorem topologicalSort_order (nodes : List DependencyNode)
    (edges : List DependencyEdge)
    (hnd : (nodes.map (fun n => n.id)).Nodup) :
    List.Perm (topologicalSort nodes edges) (nodes.map (fun n => n.id))
    ∧ (topologicalSort nodes edges).Nodup
    ∧ topologicalSort nodes edges
        = kahnPart nodes edges
          ++ (nodes.map (fun n => n.id)).filter
              (fun k => !((kahnPart nodes edges).contains k))
    ∧ (∀ e ∈ edges, e.from_id ∈ kahnPart nodes edges →
        e.to_id ∈ nodes.map (fun n => n.id) →
        (topologicalSort nodes edges).indexOf e.to_id
          < (topologicalSort nodes edges).indexOf e.from_id) := by
  set ids := nodes.map (fun n => n.id) with hids
  have hkeys : pyDictKeys ids = ids := pyDictKeys_eq_self ids hnd
  have hkp : kahnPart nodes edges
      = kahnLoop (buildAdjacency ids edges) ids.length
          (ids.filter (fun k => initialInDegree ids edges k = 0))
          (initialInDegree ids edges) [] := by
    simp only [kahnPart, ← hids]
    rw [hkeys]
  have hstruct : topologicalSort nodes edges
      = kahnPart nodes edges
        ++ ids.filter (fun k => !((kahnPart nodes edges).contains k)) := by
    simp only [topologicalSort, kahnPart, ← hids]
    rw [hkeys]
  have hgsub : ∀ m k, k ∈ buildAdjacency ids edges m → k ∈ ids :=
    fun m k h => buildAdjacency_subset ids edges m k h
  have hdeg : ∀ k ∈ ids, initialInDegree ids edges k
      = (ids.map (fun m =>
          (((buildAdjacency ids edges m).count k : Nat) : Int))).sum :=
    fun k _ => initialInDegree_eq_sum ids hnd edges k
  have hS0 : KahnState ids (buildAdjacency ids edges)
      (initialInDegree ids edges)
      (ids.filter (fun k => initialInDegree ids edges k = 0))
      (initialInDegree ids edges) [] := by
    refine ⟨by simp, ?_, ?_, ?_, ?_, ?_, ?_⟩
    · intro k hkmem
      exact (List.mem_filter.mp hkmem).1
    · simpa using hnd.filter _
    · intro k _
      simp [degAt]
    · intro k hkmem
      simp only [List.nil_append] at hkmem
      simpa using (List.mem_filter.mp hkmem).2
    · intro k hkk hzero
      simp only [List.nil_append]
      exact List.mem_filter.mpr ⟨hkk, by simpa using hzero⟩
    · intro i hi
      exact absurd hi (by simp)
  obtain ⟨hsub, hknd, hsorted⟩ := kahnLoop_spec ids (buildAdjacency ids edges)
    (initialInDegree ids edges) hnd hgsub hdeg ids.length
    (ids.filter (fun k => initialInDegree ids edges k = 0))
    (initialInDegree ids edges) [] hS0
  refine ⟨?_, ?_, ?_, ?_⟩
  · rw [hstruct, hkp]
    have hpermK : List.Perm
        (kahnLoop (buildAdjacency ids edges) ids.length
          (ids.filter (fun k => initialInDegree ids edges k = 0))
          (initialInDegree ids edges) [])
        (ids.filter (fun k =>
          (kahnLoop (buildAdjacency ids edges) ids.length
            (ids.filter (fun k => initialInDegree ids edges k = 0))
            (initialInDegree ids edges) []).contains k)) := by
      rw [List.perm_ext_iff_of_nodup hknd (hnd.filter _)]
      intro a
      rw [List.mem_filter]
      constructor
      · intro ha
        exact ⟨hsub a ha, by simpa using ha⟩
      · intro ha
        simpa using ha.2
    exact (hpermK.append_right _).trans (List.filter_append_perm _ ids)
  · have hperm : List.Perm (topologicalSort nodes edges) ids := by
      rw [hstruct, hkp]
      have hpermK : List.Perm
          (kahnLoop (buildAdjacency ids edges) ids.length
            (ids.filter (fun k => initialInDegree ids edges k = 0))
            (initialInDegree ids edges) [])
          (ids.filter (fun k =>
            (kahnLoop (buildAdjacency ids edges) ids.length
              (ids.filter (fun k => initialInDegree ids edges k = 0))
              (initialInDegree ids edges) []).contains k)) := by
        rw [List.perm_ext_iff_of_nodup hknd (hnd.filter _)]
        intro a
        rw [List.mem_filter]
        constructor
        · intro ha
          exact ⟨hsub a ha, by simpa using ha⟩
        · intro ha
          simpa using ha.2
      exact (hpermK.append_right _).trans (List.filter_append_perm _ ids)
    exact hperm.nodup_iff.mpr hnd
  · exact hstruct
  · intro e he hf htids
    rw [hkp] at hf
    have hfids : e.from_id ∈ ids := hsub _ hf
    have hgraph : e.from_id ∈ buildAdjacency ids edges e.to_id := by
      refine List.mem_map.mpr ⟨e, List.mem_filter.mpr ⟨he, ?_⟩, rfl⟩
      simp [hfids, htids]
    rcases List.mem_iff_get.mp hf with ⟨⟨i, hi⟩, hgeti⟩
    have htake : e.to_id ∈ (kahnLoop (buildAdjacency ids edges) ids.length
        (ids.filter (fun k => initialInDegree ids edges k = 0))
        (initialInDegree ids edges) []).take i := by
      refine hsorted i hi e.to_id htids ?_
      rw [hgeti]
      exact hgraph
    have htK : e.to_id ∈ kahnLoop (buildAdjacency ids edges) ids.length
        (ids.filter (fun k => initialInDegree ids edges k = 0))
        (initialInDegree ids edges) [] :=
      List.take_subset i _ htake
    have hif : (kahnLoop (buildAdjacency ids edges) ids.length
        (ids.filter (fun k => initialInDegree ids edges k = 0))
        (initialInDegree ids edges) []).indexOf e.from_id = i := by
      rw [← hgeti]
      exact List.indexOf_getElem hknd i hi
    have hit : (kahnLoop (buildAdjacency ids edges) ids.length
        (ids.filter (fun k => initialInDegree ids edges k = 0))
        (initialInDegree ids edges) []).indexOf e.to_id < i := by
      conv_lhs => rw [← List.take_append_drop i (kahnLoop (buildAdjacency ids edges)
        ids.length (ids.filter (fun k => initialInDegree ids edges k = 0))
        (initialInDegree ids edges) [])]
      rw [List.indexOf_append_of_mem htake]
      have h1 := List.indexOf_lt_length.mpr htake
      have h2 : ((kahnLoop (buildAdjacency ids edges) ids.length
          (ids.filter (fun k => initialInDegree ids edges k = 0))
          (initialInDegree ids edges) []).take i).length ≤ i := by
        simp [List.length_take]
      omega
    rw [hstruct, hkp, List.indexOf_append_of_mem htK,
      List.indexOf_append_of_mem hf, hif]
    exact hit

/-- Witness: `topologicalSort_order` applied to the concrete two-node
graph `a → b`. -/
theorem topologicalSort_order_witness :
    (c1WitnessNodes.map (fun n => n.id)).Nodup
    ∧ (List.Perm (topologicalSort c1WitnessNodes c1WitnessEdges)
        (c1WitnessNodes.map (fun n => n.id))
      ∧ (topologicalSort c1WitnessNodes c1WitnessEdges).Nodup
      ∧ topologicalSort c1WitnessNodes c1WitnessEdges
          = kahnPart c1WitnessNodes c1WitnessEdges
            ++ (c1WitnessNodes.map (fun n => n.id)).filter
                (fun k => !((kahnPart c1WitnessNodes c1WitnessEdges).contains k))
      ∧ (∀ e ∈ c1WitnessEdges,
          e.from_id ∈ kahnPart c1WitnessNodes c1WitnessEdges →
          e.to_id ∈ c1WitnessNodes.map (fun n => n.id) →
          (topologicalSort c1WitnessNodes c1WitnessEdges).indexOf e.to_id
            < (topologicalSort c1WitnessNodes c1WitnessEdges).indexOf e.from_id)) :=
  ⟨by decide, topologicalSort_order c1WitnessNodes c1WitnessEdges (by decide)⟩

/-- Counterexample to C1 as stated: in the cycle-starved graph the edge
`a → b` is a foreign-key edge with no reverse edge (so it is not
circular), yet `b` does not precede `a` in the returned order, because
the whole graph is appended in input order once the cycle starves the
queue. -/
theorem topologicalSort_noncircular_edge_counterexample :
    (c1CycleNodes.map (fun n => n.id)).Nodup
    ∧ (⟨ "a", "b", "foreign_key" ⟩ : DependencyEdge) ∈ c1CycleEdges
    ∧ (∀ e ∈ c1CycleEdges, ¬(e.from_id = "b" ∧ e.to_id = "a"))
    ∧ ¬((topologicalSort c1CycleNodes c1CycleEdges).indexOf "b"
        < (topologicalSort c1CycleNodes c1CycleEdges).indexOf "a") := by
  decide

end DbMigration
